import Mathlib

/-!
Shallow embedding of the per-frame ASCII conversion pipeline of
`src/store/index.ts` (the `updateAsciiOutput` action) and its character
ramps (`src/constants/character-sets.ts`).

Modelling conventions:
* A JS `ImageData` is a flat row-major RGBA byte list together with its
  width and height.  The `ImageData` invariant of the platform guarantees
  `data.length = 4 * width * height`; theorems that depend on in-bounds
  reads carry that equation as a hypothesis and out-of-range reads are
  modelled as `getD _ 0` (they never fire under those hypotheses).
* Stores into a `Uint8ClampedArray` follow the ECMAScript `ToUint8Clamp`
  conversion: clamp into `[0, 255]`, round to nearest, ties to even.
  The stored quantity `0.7*c + 0.3*p` is modelled exactly over `ℚ`;
  the JS double computation agrees with this except possibly by one at
  the exact half-integer ties `7*c + 3*p ≡ 5 [MOD 10]`, where the final
  double can fall on either side of the tie.
* `Math.pow`, `Math.cbrt` and the brightness arithmetic are modelled over
  the exact reals (`Real.rpow`); `Float32Array` storage rounding is
  likewise idealised away.  All properties proved below are robust to
  those roundings except where a comment says otherwise.
* Machine floats produce `Infinity`/`NaN` in the degenerate-dimension
  paths; those are modelled faithfully by the `JSNum` type below.
-/

namespace AsciiCam

/-- Model of a DOM `ImageData`: flat RGBA bytes, row-major, plus dimensions. -/
structure ImageData where
  data : List ℕ
  width : ℕ
  height : ℕ

/- Character ramps from `src/constants/character-sets.ts` (the `characters`
fields).  In `STANDARD`, the apostrophe, backtick, double quote, braces and
backslash are written with `\xNN` escapes. -/

/-- The DOTS ramp `"."`. -/
def DOTS : List Char := ".".toList

/-- The MINIMAL ramp. -/
def MINIMAL : List Char := " .:-=+*#%@".toList

/-- The STANDARD ramp (70 characters, light to dark). -/
def STANDARD : List Char :=
  " .\x27\x60^\x22,:;Il!i><~+_-?][\x7d\x7b1)(|\x5c/tfjrxnuvczXYUJCLQ0OZmwqpdbkhao*#MW&8%B@$".toList

/-- The BLOCKS ramp. -/
def BLOCKS : List Char := " ░▒▓█".toList

/-- The `CHARACTER_SETS` registry, keyed by name. -/
def CHARACTER_SETS (name : String) : Option (List Char) :=
  if name = "DOTS" then some DOTS
  else if name = "MINIMAL" then some MINIMAL
  else if name = "STANDARD" then some STANDARD
  else if name = "BLOCKS" then some BLOCKS
  else none

/-- The default charset name. -/
def DEFAULT_CHARSET : String := "STANDARD"

/-- ECMAScript `ToUint8Clamp`: clamp into `[0,255]`, round to nearest,
ties to even.  Generic over the ordered field so it is computable at `ℚ`
(Uint8ClampedArray stores in the smoothing loop) and usable at `ℝ`
(stores of the gamma-attenuated channels). -/
def toUint8Clamp {α : Type} [LinearOrderedField α] [FloorRing α] (x : α) : ℕ :=
  if x ≤ 0 then 0
  else if 255 ≤ x then 255
  else if x - ⌊x⌋ < 1 / 2 then ⌊x⌋.toNat
  else if 1 / 2 < x - ⌊x⌋ then (⌊x⌋ + 1).toNat
  else if ⌊x⌋ % 2 = 0 then ⌊x⌋.toNat
  else (⌊x⌋ + 1).toNat

/-- Line 75: `smoothedMask[i] = 0.7 * maskData.data[i] + 0.3 * previousMaskData[i]`,
stored into a `Uint8ClampedArray` (see the tie caveat in the header). -/
def smoothClampStore (c p : ℕ) : ℕ :=
  toUint8Clamp ((0.7 : ℚ) * c + (0.3 : ℚ) * p)

/-- Lines 72–77: the temporally smoothed mask.  Starts as a copy of
`mask`; when a previous mask of the same length exists, every 4th entry
(the red/confidence channel) is replaced by the blended, byte-stored value. -/
def smoothedMask (mask : List ℕ) (prev : Option (List ℕ)) : List ℕ :=
  match prev with
  | some p =>
    if p.length = mask.length then
      (List.range mask.length).map (fun i =>
        if i % 4 = 0 then smoothClampStore (mask.getD i 0) (p.getD i 0)
        else mask.getD i 0)
    else mask
  | none => mask

/-- Line 82: `Math.pow(alpha, 0.8)` with `alpha = smoothedMask[i] / 255`. -/
noncomputable def gammaCorrectedAlpha (c : ℕ) : ℝ :=
  ((c : ℝ) / 255) ^ (0.8 : ℝ)

/-- Lines 80–86: the masked pixel buffer.  A copy of the input pixels
whose R, G, B channels are multiplied by the gamma-corrected alpha of
their pixel's smoothed confidence and stored back into the clamped
array; the loop runs over the smoothed mask, so a channel is touched only
when its pixel base index is below the mask length; alpha channels
(`j % 4 = 3`) are never written. -/
noncomputable def maskedData (px : List ℕ) (sm : List ℕ) : List ℕ :=
  (List.range px.length).map (fun j =>
    if j % 4 = 3 then px.getD j 0
    else if 4 * (j / 4) < sm.length then
      toUint8Clamp ((px.getD j 0 : ℝ) * gammaCorrectedAlpha (sm.getD (4 * (j / 4)) 0))
    else px.getD j 0)

/-- Lines 62–89: the mask compositor.  With no mask the pixels pass
through and the previous-mask state is untouched; with a mask, a fresh
buffer is produced from the smoothed mask and the previous-mask state is
replaced by the raw confidence bytes of the current mask (line 78 runs
unconditionally inside the `if (maskData)` block, before the gamma loop). -/
noncomputable def composite (px : ImageData) (mask : Option ImageData)
    (prev : Option (List ℕ)) : ImageData × Option (List ℕ) :=
  match mask with
  | none => (px, prev)
  | some m => (⟨maskedData px.data (smoothedMask m.data prev), px.width, px.height⟩,
      some m.data)

/-- Lines 101–106: the sampled byte indices `0, 16, 32, …` below `len`
(every 4th pixel, stride 16 bytes). -/
def sampleIdxs (len : ℕ) : List ℕ :=
  (List.range ((len + 15) / 16)).map (fun k => 16 * k)

/-- Lines 102–106: channel sum over the sample (`off` = 0, 1, 2 for R, G, B). -/
def sumChannel (data : List ℕ) (off : ℕ) : ℕ :=
  ((sampleIdxs data.length).map (fun i => data.getD (i + off) 0)).sum

/-- Lines 107–110: `sampleCount = Math.ceil(totalPixels / 4)` and the
channel mean.  (For an empty sample JS produces `NaN` and every later
comparison is false; the model's `0` induces the same corrections.) -/
def meanChannel (data : List ℕ) (width height off : ℕ) : ℚ :=
  (sumChannel data off : ℚ) / (((width * height + 3) / 4 : ℕ) : ℚ)

/-- The per-frame color correction produced by lines 98–129. -/
structure ColorCorrection where
  wbR : ℚ
  wbG : ℚ
  wbB : ℚ
  tempR : ℚ
  tempG : ℚ
  tempB : ℚ
deriving DecidableEq

/-- Lines 98–129: Gray-World white balance and color-temperature
compensation, computed once per frame from the sampled channel means. -/
def calibrate (data : List ℕ) (width height : ℕ) : ColorCorrection :=
  let meanR := meanChannel data width height 0
  let meanG := meanChannel data width height 1
  let meanB := meanChannel data width height 2
  let grayMean := (meanR + meanG + meanB) / 3
  let wbR := if meanR > 0 then grayMean / meanR else 1
  let wbG := if meanG > 0 then grayMean / meanG else 1
  let wbB := if meanB > 0 then grayMean / meanB else 1
  let colorTempQuot := (meanR + meanG) / (meanB + 1)
  if colorTempQuot > 2.5 then ⟨wbR, wbG, wbB, 0.92, 1, 1.08⟩
  else if colorTempQuot < 1.5 then ⟨wbR, wbG, wbB, 1.08, 1, 0.92⟩
  else ⟨wbR, wbG, wbB, 1, 1, 1⟩

/-- Lines 132–135: linearize an sRGB component (scaled to a byte) for the
LAB conversion. -/
noncomputable def srgbToLinear (c : ℝ) : ℝ :=
  let s := c / 255
  if s ≤ 0.04045 then s / 12.92 else ((s + 0.055) / 1.055) ^ (2.4 : ℝ)

/-- Lines 152–154: relative luminance to CIE L* (`Math.cbrt` is the
real cube root; both branches of the source's two conditionals are
selected by the same comparison `y > 0.008856`). -/
noncomputable def labLOfY (y : ℝ) : ℝ :=
  if y > 0.008856 then 116 * (y ^ ((1 : ℝ) / 3)) - 16 else 903.3 * y

/-- Lines 138–155: white balance + color temperature correction (each
channel clamped to 255), sRGB to linear, BT.709 relative luminance, then
CIE L* lightness. -/
noncomputable def rgbToLabL (corr : ColorCorrection) (r g b : ℝ) : ℝ :=
  let r1 := min 255 (r * (corr.wbR : ℝ) * (corr.tempR : ℝ))
  let g1 := min 255 (g * (corr.wbG : ℝ) * (corr.tempG : ℝ))
  let b1 := min 255 (b * (corr.wbB : ℝ) * (corr.tempB : ℝ))
  let lr := srgbToLinear r1
  let lg := srgbToLinear g1
  let lb := srgbToLinear b1
  labLOfY (0.2126 * lr + 0.7152 * lg + 0.0722 * lb)

/-- Lines 159–172: average L* over the cell block at grid position
`(x, y)`; the block spans `cellW × cellH` source pixels starting at
`(x * cellW, y * cellH)` and `pixelCount = cellH * cellW`. -/
noncomputable def cellBrightness (data : List ℕ) (imgWidth : ℕ)
    (corr : ColorCorrection) (cellW cellH : ℕ) (x y : ℕ) : ℝ :=
  (∑ cy ∈ Finset.range cellH, ∑ cx ∈ Finset.range cellW,
      rgbToLabL corr
        (data.getD (((y * cellH + cy) * imgWidth + (x * cellW + cx)) * 4) 0)
        (data.getD (((y * cellH + cy) * imgWidth + (x * cellW + cx)) * 4 + 1) 0)
        (data.getD (((y * cellH + cy) * imgWidth + (x * cellW + cx)) * 4 + 2) 0)) /
    ((cellH * cellW : ℕ) : ℝ)

/-- Lines 184–195: mean of the up-to-3×3 neighborhood of cell `(x, y)`,
clipped at the grid edges (`rows × aw` grid). -/
noncomputable def blurredAt (data : List ℕ) (imgWidth : ℕ)
    (corr : ColorCorrection) (cellW cellH aw rows : ℕ) (x y : ℕ) : ℝ :=
  let nbhd := ((Finset.Icc (-1 : ℤ) 1) ×ˢ (Finset.Icc (-1 : ℤ) 1)).filter
    (fun d => 0 ≤ (y : ℤ) + d.1 ∧ (y : ℤ) + d.1 < (rows : ℤ) ∧
      0 ≤ (x : ℤ) + d.2 ∧ (x : ℤ) + d.2 < (aw : ℤ))
  (∑ d ∈ nbhd, cellBrightness data imgWidth corr cellW cellH
      ((x : ℤ) + d.2).toNat ((y : ℤ) + d.1).toNat) / (nbhd.card : ℝ)

/-- Line 198: `sharpened = Math.max(0, Math.min(100, original + 0.5 * (original - blurred)))`. -/
noncomputable def sharpenedAt (data : List ℕ) (imgWidth : ℕ)
    (corr : ColorCorrection) (cellW cellH aw rows : ℕ) (x y : ℕ) : ℝ :=
  let original := cellBrightness data imgWidth corr cellW cellH x y
  max 0 (min 100 (original + 0.5 * (original - blurredAt data imgWidth corr cellW cellH aw rows x y)))

/-- Line 201: `charIndex = Math.floor((sharpened / 100) * (charset.length - 1))`. -/
noncomputable def charIndexOf (sharpened : ℝ) (rampLen : ℕ) : ℤ :=
  ⌊sharpened / 100 * ((rampLen : ℝ) - 1)⌋

/-- Line 202: `parts.push(charset[charIndex])`.  A JS string index out of
range yields `undefined`, which `Array.prototype.join` renders as the
empty string; in range it contributes exactly one UTF-16 unit (all ramp
characters are in the BMP). -/
noncomputable def cellChar (data : List ℕ) (imgWidth : ℕ)
    (corr : ColorCorrection) (charset : List Char) (cellW cellH aw rows : ℕ)
    (x y : ℕ) : List Char :=
  let idx := charIndexOf (sharpenedAt data imgWidth corr cellW cellH aw rows x y) charset.length
  if idx < 0 then [] else (charset[idx.toNat]?).toList

/-- Lines 176–207: the flattened character stream — per row, `aw` cell
emissions followed by one newline, rows concatenated in order; the final
`parts.join('')` is the concatenation of all pieces. -/
noncomputable def asciiArtChars (data : List ℕ) (imgWidth : ℕ)
    (corr : ColorCorrection) (charset : List Char) (aw cellW cellH rows : ℕ) : List Char :=
  ((List.range rows).map (fun y =>
    ((List.range aw).map (fun x =>
      cellChar data imgWidth corr charset cellW cellH aw rows x y)).flatten ++ ['\n'])).flatten

/-- IEEE-double values produced by the dimension computation of lines
94–96: every finite value reached there is exactly representable, so the
finite case carries an exact rational.  Negative zero is collapsed onto
`num 0`; the observable outcomes (allocation failure, loop trip counts)
are unchanged by this (see `jsToIndex`). -/
inductive JSNum where
  | num : ℚ → JSNum
  | posInf : JSNum
  | negInf : JSNum
  | nan : JSNum
deriving DecidableEq

/-- IEEE division for the values reachable at lines 94–96. -/
def jsDiv : JSNum → JSNum → JSNum
  | .num a, .num b =>
      if b = 0 then (if 0 < a then .posInf else if a < 0 then .negInf else .nan)
      else .num (a / b)
  | .num _, .posInf => .num 0
  | .num _, .negInf => .num 0
  | .num _, .nan => .nan
  | .posInf, .num b => if 0 ≤ b then .posInf else .negInf
  | .negInf, .num b => if 0 ≤ b then .negInf else .posInf
  | _, _ => .nan

/-- IEEE multiplication for the values reachable at lines 94–96 and the
`Float32Array` length expression. -/
def jsMul : JSNum → JSNum → JSNum
  | .num a, .num b => .num (a * b)
  | .num a, .posInf => if 0 < a then .posInf else if a < 0 then .negInf else .nan
  | .num a, .negInf => if 0 < a then .negInf else if a < 0 then .posInf else .nan
  | .posInf, .num b => if 0 < b then .posInf else if b < 0 then .negInf else .nan
  | .negInf, .num b => if 0 < b then .negInf else if b < 0 then .posInf else .nan
  | .posInf, .posInf => .posInf
  | .posInf, .negInf => .negInf
  | .negInf, .posInf => .negInf
  | .negInf, .negInf => .posInf
  | _, _ => .nan

/-- `Math.floor` on a JS number. -/
def jsFloor : JSNum → JSNum
  | .num a => .num ⌊a⌋
  | x => x

/-- ECMAScript `ToIndex` as used by the `Float32Array(length)`
constructor at line 158: `NaN` truncates to `0`; an infinite or negative
length throws a `RangeError` (`none`).  (The 2^53 cap is not modelled;
no theorem below exercises lengths that large.) -/
def jsToIndex : JSNum → Option ℕ
  | .num q => if q < 0 then (if -1 < q then some 0 else none) else some ⌊q⌋.toNat
  | .posInf => none
  | .negInf => none
  | .nan => some 0

/-- Trip count of a `for (let v = 0; v < bound; v++)` loop whose bound is
a JS number (`NaN` and non-positive bounds run zero iterations).  A
`posInf` bound would not terminate, but in `updateAsciiOutput` the row
bound is always finite once the allocation has succeeded, so that case is
unreachable there and is mapped to `0`. -/
def jsTripCount : JSNum → ℕ
  | .num q => ⌊q⌋.toNat
  | .posInf => 0
  | .negInf => 0
  | .nan => 0

/-- Lines 58–208: the whole `updateAsciiOutput` action on one frame.
Returns the published text (`none` when the `Float32Array` allocation at
line 158 throws, in which case `asciiOutput` is never written) together
with the new `previousMaskData` (already replaced at line 78, before any
possible throw).  `asciiWidth` is an integer-valued JS number. -/
noncomputable def updateAsciiOutput (img : ImageData) (mask : Option ImageData)
    (prev : Option (List ℕ)) (asciiWidth : ℤ) (charset : List Char) :
    Option String × Option (List ℕ) :=
  let res := composite img mask prev
  let processed := res.1
  let cellW := jsFloor (jsDiv (.num processed.width) (.num asciiWidth))
  let cellH := jsFloor (jsMul cellW (.num 2))
  let hgt := jsFloor (jsDiv (.num processed.height) cellH)
  let corr := calibrate processed.data processed.width processed.height
  match jsToIndex (jsMul (.num asciiWidth) hgt) with
  | none => (none, res.2)
  | some _ => (some (String.mk (asciiArtChars processed.data processed.width corr
      charset asciiWidth.toNat (jsTripCount cellW) (jsTripCount cellH) (jsTripCount hgt))),
      res.2)

/-! ### Helper lemmas -/

set_option maxRecDepth 8000

/-- Reading an index-built buffer inside its range. -/
theorem getD_map_range {β : Type} [Inhabited β] (n : ℕ) (f : ℕ → β) (i : ℕ)
    (hi : i < n) (d : β) : ((List.range n).map f).getD i d = f i := by
  simp [List.getD_eq_getElem?_getD, List.getElem?_map, List.getElem?_range, hi]

/-- Reading an index-built buffer outside its range. -/
theorem getD_map_range_ge {β : Type} [Inhabited β] (n : ℕ) (f : ℕ → β) (i : ℕ)
    (hi : n ≤ i) (d : β) : ((List.range n).map f).getD i d = d := by
  simp [List.getD_eq_getElem?_getD, List.getElem?_map, List.getElem?_eq_none, hi]

/-- The smoothed mask has the pixel count of the current mask. -/
theorem smoothedMask_length (mask : List ℕ) (prev : Option (List ℕ)) :
    (smoothedMask mask prev).length = mask.length := by
  cases prev with
  | none => rfl
  | some p =>
    rw [smoothedMask]
    by_cases h : p.length = mask.length <;> simp [h]

/-- `ToUint8Clamp` is the identity on byte values. -/
theorem toUint8Clamp_natCast (c : ℕ) (hc : c ≤ 255) : toUint8Clamp (c : ℚ) = c := by
  rw [toUint8Clamp]
  rcases Nat.eq_zero_or_pos c with h0 | h0
  · subst h0; norm_num
  · rw [if_neg (by exact_mod_cast Nat.not_le.mpr h0)]
    rcases eq_or_lt_of_le hc with h255 | h255
    · subst h255; norm_num
    · rw [if_neg (by exact_mod_cast Nat.not_le.mpr h255)]
      rw [Int.floor_natCast]
      have hz : (c : ℚ) - ((c : ℤ) : ℚ) = 0 := by push_cast; ring
      rw [hz]
      norm_num

/-- Blending a byte with itself stores it back unchanged
(`0.7 * c + 0.3 * c = c`, and the byte store fixes bytes). -/
theorem smoothClampStore_self (c : ℕ) (hc : c ≤ 255) : smoothClampStore c c = c := by
  rw [smoothClampStore]
  have h : (0.7 : ℚ) * c + (0.3 : ℚ) * c = (c : ℚ) := by ring_nf
  rw [h, toUint8Clamp_natCast c hc]

/-! ### C3: smoothing rule and previous-mask update -/

/-- C3: with a mask supplied, the previous-mask state is replaced by the
raw (unsmoothed) confidence bytes of the current mask in every case, and
the confidence actually used at a pixel base index `i` is the byte-stored
blend `0.7·c + 0.3·previous[i]` exactly when a previous mask with the
same pixel count exists, and the raw byte otherwise. -/
theorem smoothing_rule_C3 (px m : ImageData) (prev : Option (List ℕ)) (i : ℕ)
    (hi : i < m.data.length) (h4 : i % 4 = 0) :
    (composite px (some m) prev).2 = some m.data ∧
    (smoothedMask m.data none).getD i 0 = m.data.getD i 0 ∧
    (∀ p : List ℕ, p.length ≠ m.data.length →
      (smoothedMask m.data (some p)).getD i 0 = m.data.getD i 0) ∧
    (∀ p : List ℕ, p.length = m.data.length →
      (smoothedMask m.data (some p)).getD i 0 =
        smoothClampStore (m.data.getD i 0) (p.getD i 0)) := by
  refine ⟨rfl, rfl, ?_, ?_⟩
  · intro p hp
    rw [smoothedMask, if_neg hp]
  · intro p hp
    rw [smoothedMask, if_pos hp, getD_map_range _ _ _ hi, if_pos h4]

/-- Witness for C3 at a concrete one-pixel frame and mask. -/
theorem smoothing_rule_C3_witness :
    (0 : ℕ) < ([200, 0, 0, 255] : List ℕ).length ∧ (0 : ℕ) % 4 = 0 ∧
    ((composite ⟨[10, 20, 30, 40], 1, 1⟩ (some ⟨[200, 0, 0, 255], 1, 1⟩) none).2 =
      some [200, 0, 0, 255] ∧
    (smoothedMask [200, 0, 0, 255] none).getD 0 0 = ([200, 0, 0, 255] : List ℕ).getD 0 0 ∧
    (∀ p : List ℕ, p.length ≠ ([200, 0, 0, 255] : List ℕ).length →
      (smoothedMask [200, 0, 0, 255] (some p)).getD 0 0 = ([200, 0, 0, 255] : List ℕ).getD 0 0) ∧
    (∀ p : List ℕ, p.length = ([200, 0, 0, 255] : List ℕ).length →
      (smoothedMask [200, 0, 0, 255] (some p)).getD 0 0 =
        smoothClampStore (([200, 0, 0, 255] : List ℕ).getD 0 0) (p.getD 0 0))) :=
  ⟨by decide, by decide,
    smoothing_rule_C3 ⟨[10, 20, 30, 40], 1, 1⟩ ⟨[200, 0, 0, 255], 1, 1⟩ none 0
      (by decide) (by decide)⟩

/-! ### C4: no-mask pass-through -/

/-- C4: with no mask, the compositor returns the pixel buffer and the
previous-mask state unchanged, and the whole action leaves the
previous-mask state untouched. -/
theorem no_mask_passthrough_C4 (px : ImageData) (prev : Option (List ℕ))
    (aw : ℤ) (cs : List Char) :
    composite px none prev = (px, prev) ∧
    (updateAsciiOutput px none prev aw cs).2 = prev := by
  refine ⟨rfl, ?_⟩
  rw [updateAsciiOutput]
  cases jsToIndex (jsMul (.num aw) (jsFloor (jsDiv (.num (composite px none prev).1.height)
      (jsFloor (jsMul (jsFloor (jsDiv (.num (composite px none prev).1.width) (.num aw)))
        (.num 2)))))) <;> rfl

/-! ### C8: static mask is a fixed point of the smoothing -/

/-- C8: feeding the same mask on two consecutive frames — the first call
leaves its raw bytes in the previous-mask state — makes the second
frame's smoothed mask equal to the raw mask at every position, byte
rounding included. -/
theorem static_mask_fixed_point_C8 (px m : ImageData) (prev0 : Option (List ℕ))
    (hb : ∀ v ∈ m.data, v ≤ 255) :
    smoothedMask m.data (composite px (some m) prev0).2 = m.data := by
  have h2 : (composite px (some m) prev0).2 = some m.data := rfl
  rw [h2, smoothedMask, if_pos rfl]
  apply List.ext_getElem
  · simp
  · intro i h1 h2'
    have hlt : i < m.data.length := h2'
    rw [List.getElem_map, List.getElem_range]
    by_cases h4 : i % 4 = 0
    · rw [if_pos h4]
      have hv : m.data.getD i 0 = m.data[i] := List.getD_eq_getElem m.data 0 hlt
      rw [hv, smoothClampStore_self _ (hb _ (List.getElem_mem hlt))]
    · rw [if_neg h4]
      exact List.getD_eq_getElem m.data 0 hlt

/-- Witness for C8 at a concrete mask. -/
theorem static_mask_fixed_point_C8_witness :
    (∀ v ∈ ([37, 0, 0, 255] : List ℕ), v ≤ 255) ∧
    smoothedMask [37, 0, 0, 255]
      (composite ⟨[1, 2, 3, 4], 1, 1⟩ (some ⟨[37, 0, 0, 255], 1, 1⟩) none).2 = [37, 0, 0, 255] :=
  ⟨by decide, static_mask_fixed_point_C8 ⟨[1, 2, 3, 4], 1, 1⟩ ⟨[37, 0, 0, 255], 1, 1⟩ none
    (by decide)⟩

/-! ### C5: masked compositing formula -/

/-- C5: with a mask of matching size the compositor produces a fresh
buffer of the same dimensions (the input buffer is a value and is never
mutated in this model) in which every alpha byte is the input alpha byte
and every color byte is the input byte scaled by
`(c'/255)^0.8` for its pixel's smoothed confidence `c'`, byte-stored. -/
theorem masked_composite_formula_C5 (px m : ImageData) (prev : Option (List ℕ))
    (hl : m.data.length = px.data.length) :
    (composite px (some m) prev).1.width = px.width ∧
    (composite px (some m) prev).1.height = px.height ∧
    (composite px (some m) prev).1.data.length = px.data.length ∧
    (∀ j, j % 4 = 3 →
      (composite px (some m) prev).1.data.getD j 0 = px.data.getD j 0) ∧
    (∀ j, j < px.data.length → j % 4 ≠ 3 →
      (composite px (some m) prev).1.data.getD j 0 =
        toUint8Clamp ((px.data.getD j 0 : ℝ) *
          gammaCorrectedAlpha ((smoothedMask m.data prev).getD (4 * (j / 4)) 0))) := by
  have hsm : (smoothedMask m.data prev).length = px.data.length := by
    rw [smoothedMask_length, hl]
  refine ⟨rfl, rfl, by simp [composite, maskedData], ?_, ?_⟩
  · intro j h3
    show (maskedData px.data (smoothedMask m.data prev)).getD j 0 = px.data.getD j 0
    rcases Nat.lt_or_ge j px.data.length with hj | hj
    · rw [maskedData, getD_map_range _ _ _ hj, if_pos h3]
    · rw [maskedData, getD_map_range_ge _ _ _ hj]
      exact (List.getD_eq_default _ _ hj).symm
  · intro j hj h3
    show (maskedData px.data (smoothedMask m.data prev)).getD j 0 = _
    have hbase : 4 * (j / 4) < (smoothedMask m.data prev).length := by
      rw [hsm]
      have h1 : 4 * (j / 4) ≤ j := by
        rw [Nat.mul_comm]
        exact Nat.div_mul_le_self j 4
      exact lt_of_le_of_lt h1 hj
    rw [maskedData, getD_map_range _ _ _ hj, if_neg h3, if_pos hbase]

/-- Witness for C5 at a concrete one-pixel frame and mask. -/
theorem masked_composite_formula_C5_witness :
    ([200, 0, 0, 255] : List ℕ).length = ([10, 20, 30, 40] : List ℕ).length ∧
    (composite ⟨[10, 20, 30, 40], 1, 1⟩ (some ⟨[200, 0, 0, 255], 1, 1⟩) none).1.width = 1 ∧
    (∀ j, j < ([10, 20, 30, 40] : List ℕ).length → j % 4 ≠ 3 →
      (composite ⟨[10, 20, 30, 40], 1, 1⟩ (some ⟨[200, 0, 0, 255], 1, 1⟩) none).1.data.getD j 0 =
        toUint8Clamp ((([10, 20, 30, 40] : List ℕ).getD j 0 : ℝ) *
          gammaCorrectedAlpha ((smoothedMask [200, 0, 0, 255] none).getD (4 * (j / 4)) 0))) :=
  ⟨by decide,
    (masked_composite_formula_C5 ⟨[10, 20, 30, 40], 1, 1⟩ ⟨[200, 0, 0, 255], 1, 1⟩ none
      (by decide)).1,
    (masked_composite_formula_C5 ⟨[10, 20, 30, 40], 1, 1⟩ ⟨[200, 0, 0, 255], 1, 1⟩ none
      (by decide)).2.2.2.2⟩

/-! ### C2: color correction on neutral-gray scenes -/

/-- C2 counterexample: an all-black 2×2 frame has equal sampled channel
means (all zero), yet the ratio `t = 0` falls below `1.5` and the
calibrator applies the cool-bias compensation `tempR = 1.08`,
`tempB = 0.92` — not the identity the claim asserts. -/
theorem gray_not_identity_C2cex :
    meanChannel (List.replicate 16 0) 2 2 0 = meanChannel (List.replicate 16 0) 2 2 1 ∧
    meanChannel (List.replicate 16 0) 2 2 1 = meanChannel (List.replicate 16 0) 2 2 2 ∧
    calibrate (List.replicate 16 0) 2 2 = ⟨1, 1, 1, 1.08, 1, 0.92⟩ ∧
    (calibrate (List.replicate 16 0) 2 2).tempR ≠ 1 := by
  have h0 : sumChannel (List.replicate 16 0) 0 = 0 := by decide
  have h1 : sumChannel (List.replicate 16 0) 1 = 0 := by decide
  have h2 : sumChannel (List.replicate 16 0) 2 = 0 := by decide
  have hcal : calibrate (List.replicate 16 0) 2 2 = ⟨1, 1, 1, 1.08, 1, 0.92⟩ := by
    rw [calibrate, meanChannel, meanChannel, meanChannel, h0, h1, h2]
    norm_num
  refine ⟨?_, ?_, hcal, ?_⟩
  · rw [meanChannel, meanChannel, h0, h1]
  · rw [meanChannel, meanChannel, h1, h2]
  · rw [hcal]
    norm_num

/-- C2 amended: a frame with equal sampled channel means yields the
identity white balance, and also the identity temperature compensation
provided the common mean is at least 3 (then `t = 2m/(m+1) ∈ [1.5, 2)`);
for a darker gray scene (`m < 3`) the ratio falls below `1.5` and the
cool-bias branch fires instead. -/
theorem gray_world_identity_C2 (data : List ℕ) (w h : ℕ)
    (hRG : meanChannel data w h 0 = meanChannel data w h 1)
    (hGB : meanChannel data w h 1 = meanChannel data w h 2)
    (h3 : 3 ≤ meanChannel data w h 0) :
    calibrate data w h = ⟨1, 1, 1, 1, 1, 1⟩ := by
  have h1 : meanChannel data w h 1 = meanChannel data w h 0 := hRG.symm
  have h2 : meanChannel data w h 2 = meanChannel data w h 0 := (hRG.trans hGB).symm
  rw [calibrate, h1, h2]
  set m := meanChannel data w h 0 with hm
  have hpos : (0 : ℚ) < m := lt_of_lt_of_le (by norm_num) h3
  have hne : m ≠ 0 := ne_of_gt hpos
  have hgray : (m + m + m) / 3 / m = 1 := by
    field_simp
    ring
  have hden : (0 : ℚ) < m + 1 := by linarith
  have hnotwarm : ¬((m + m) / (m + 1) > 2.5) := by
    rw [not_lt, div_le_iff₀ hden]
    linarith
  have hnotcool : ¬((m + m) / (m + 1) < 1.5) := by
    rw [not_lt, le_div_iff₀ hden]
    linarith
  rw [if_neg hnotwarm, if_neg hnotcool, if_pos hpos, hgray]

/-- Witness for C2 (amended) at a uniform mid-gray 2×2 frame. -/
theorem gray_world_identity_C2_witness :
    meanChannel (List.replicate 16 100) 2 2 0 = meanChannel (List.replicate 16 100) 2 2 1 ∧
    meanChannel (List.replicate 16 100) 2 2 1 = meanChannel (List.replicate 16 100) 2 2 2 ∧
    3 ≤ meanChannel (List.replicate 16 100) 2 2 0 ∧
    calibrate (List.replicate 16 100) 2 2 = ⟨1, 1, 1, 1, 1, 1⟩ := by
  have h0 : sumChannel (List.replicate 16 100) 0 = 100 := by decide
  have h1 : sumChannel (List.replicate 16 100) 1 = 100 := by decide
  have h2 : sumChannel (List.replicate 16 100) 2 = 100 := by decide
  have e0 : meanChannel (List.replicate 16 100) 2 2 0 = 100 := by
    rw [meanChannel, h0]; norm_num
  have e1 : meanChannel (List.replicate 16 100) 2 2 1 = 100 := by
    rw [meanChannel, h1]; norm_num
  have e2 : meanChannel (List.replicate 16 100) 2 2 2 = 100 := by
    rw [meanChannel, h2]; norm_num
  refine ⟨by rw [e0, e1], by rw [e1, e2], by rw [e0]; norm_num, ?_⟩
  exact gray_world_identity_C2 _ 2 2 (by rw [e0, e1]) (by rw [e1, e2]) (by rw [e0]; norm_num)

/-! ### C1: degenerate grid configuration -/

/-- C1 counterexample: with `gridWidth = 0` (non-positive) on an 8×8
frame the conversion does not refuse — it runs to completion and
publishes an empty text (`cellWidth` becomes `Infinity`, the row count 0,
and `asciiOutput` is set to the empty string). -/
theorem degenerate_grid_C1cex :
    updateAsciiOutput ⟨List.replicate 256 0, 8, 8⟩ none none 0 STANDARD =
      (some "", none) := by
  rw [updateAsciiOutput]
  show (match jsToIndex (jsMul (.num 0) (jsFloor (jsDiv (.num 8)
      (jsFloor (jsMul (jsFloor (jsDiv (.num 8) (.num 0))) (.num 2)))))) with
    | none => _
    | some _ => _) = _
  have h1 : jsFloor (jsDiv (JSNum.num 8) (JSNum.num 0)) = JSNum.posInf := by
    norm_num [jsDiv, jsFloor]
  rw [h1]
  have h2 : jsFloor (jsMul JSNum.posInf (JSNum.num 2)) = JSNum.posInf := by
    norm_num [jsMul, jsFloor]
  rw [h2]
  have h3 : jsFloor (jsDiv (JSNum.num 8) JSNum.posInf) = JSNum.num 0 := by
    norm_num [jsDiv, jsFloor]
  rw [h3]
  have h4 : jsToIndex (jsMul (JSNum.num 0) (JSNum.num 0)) = some 0 := by
    norm_num [jsMul, jsToIndex]
  rw [h4]
  show (some (String.mk (asciiArtChars _ _ _ _ _ _ _ (jsTripCount (JSNum.num 0)))), none) = _
  have h5 : jsTripCount (JSNum.num 0) = 0 := by
    norm_num [jsTripCount]
  rw [h5, asciiArtChars]
  rfl

/-- The compositor preserves the frame dimensions. -/
theorem composite_dims (px : ImageData) (mask : Option ImageData)
    (prev : Option (List ℕ)) :
    (composite px mask prev).1.width = px.width ∧
    (composite px mask prev).1.height = px.height := by
  cases mask <;> exact ⟨rfl, rfl⟩

/-- C1 amended: when `gridWidth ≥ 1` but the image is narrower than the
grid (`cellWidth = 0`) and at least one pixel row exists, the conversion
aborts at the grid allocation (`Float32Array(Infinity)` throws) and
publishes nothing; when `gridWidth = 0`, it instead runs to completion
and publishes the empty text. -/
theorem degenerate_grid_C1 (img : ImageData) (mask : Option ImageData)
    (prev : Option (List ℕ)) (aw : ℤ) (cs : List Char) :
    (1 ≤ aw → (img.width : ℤ) < aw → 1 ≤ img.height →
      (updateAsciiOutput img mask prev aw cs).1 = none) ∧
    (aw = 0 → (updateAsciiOutput img mask prev aw cs).1 = some "") := by
  have hw := (composite_dims img mask prev).1
  have hh := (composite_dims img mask prev).2
  constructor
  · intro haw hwa hh1
    have hne : ((aw : ℚ)) ≠ 0 := by
      have : (0 : ℤ) < aw := lt_of_lt_of_le one_pos haw
      exact_mod_cast ne_of_gt this
    have hawq : (0 : ℚ) < (aw : ℚ) := by
      have : (0 : ℤ) < aw := lt_of_lt_of_le one_pos haw
      exact_mod_cast this
    have hcw : jsFloor (jsDiv (JSNum.num ((composite img mask prev).1.width : ℚ))
        (JSNum.num (aw : ℚ))) = JSNum.num 0 := by
      rw [hw]
      simp only [jsDiv, if_neg hne, jsFloor]
      congr 1
      have h0 : (0 : ℚ) ≤ (img.width : ℚ) / (aw : ℚ) :=
        div_nonneg (by positivity) (le_of_lt hawq)
      have h1 : (img.width : ℚ) / (aw : ℚ) < 1 := by
        rw [div_lt_one hawq]
        exact_mod_cast hwa
      have := Int.floor_eq_zero_iff.mpr ⟨h0, h1⟩
      exact_mod_cast this
    have hch : jsFloor (jsMul (JSNum.num 0) (JSNum.num 2)) = JSNum.num 0 := by
      simp only [jsMul, jsFloor]
      norm_num
    have hhq : (0 : ℚ) < ((composite img mask prev).1.height : ℚ) := by
      rw [hh]
      exact_mod_cast lt_of_lt_of_le one_pos hh1
    have hgt : jsFloor (jsDiv (JSNum.num ((composite img mask prev).1.height : ℚ))
        (JSNum.num 0)) = JSNum.posInf := by
      simp [jsDiv, jsFloor, hhq]
    have halloc : jsToIndex (jsMul (JSNum.num (aw : ℚ)) JSNum.posInf) = none := by
      simp only [jsMul, if_pos hawq, jsToIndex]
    simp only [updateAsciiOutput, hcw, hch, hgt, halloc]
  · intro h0
    subst h0
    rcases Nat.eq_zero_or_pos img.width with hw0 | hw0
    · have hcw : jsFloor (jsDiv (JSNum.num ((composite img mask prev).1.width : ℚ))
          (JSNum.num ((0 : ℤ) : ℚ))) = JSNum.nan := by
        rw [hw, hw0]
        simp [jsDiv, jsFloor]
      have hch : jsFloor (jsMul JSNum.nan (JSNum.num 2)) = JSNum.nan := by
        simp [jsMul, jsFloor]
      have hgt : jsFloor (jsDiv (JSNum.num ((composite img mask prev).1.height : ℚ))
          JSNum.nan) = JSNum.nan := by
        simp [jsDiv, jsFloor]
      have halloc : jsToIndex (jsMul (JSNum.num ((0 : ℤ) : ℚ)) JSNum.nan) = some 0 := by
        simp [jsMul, jsToIndex]
      simp only [updateAsciiOutput, hcw, hch, hgt, halloc, jsTripCount]
      rfl
    · have hwq : (0 : ℚ) < ((composite img mask prev).1.width : ℚ) := by
        rw [hw]
        exact_mod_cast hw0
      have hcw : jsFloor (jsDiv (JSNum.num ((composite img mask prev).1.width : ℚ))
          (JSNum.num ((0 : ℤ) : ℚ))) = JSNum.posInf := by
        simp [jsDiv, jsFloor, hwq]
      have hch : jsFloor (jsMul JSNum.posInf (JSNum.num 2)) = JSNum.posInf := by
        norm_num [jsMul, jsFloor]
      have hgt : jsFloor (jsDiv (JSNum.num ((composite img mask prev).1.height : ℚ))
          JSNum.posInf) = JSNum.num 0 := by
        simp [jsDiv, jsFloor]
      have halloc : jsToIndex (jsMul (JSNum.num ((0 : ℤ) : ℚ)) (JSNum.num 0)) = some 0 := by
        norm_num [jsMul, jsToIndex]
      simp only [updateAsciiOutput, hcw, hch, hgt, halloc, jsTripCount]
      rfl

/-- Witness for C1 (amended), both branches at concrete frames. -/
theorem degenerate_grid_C1_witness :
    ((1 : ℤ) ≤ 120 ∧ ((8 : ℕ) : ℤ) < 120 ∧ (1 : ℕ) ≤ 8 ∧
      (updateAsciiOutput ⟨List.replicate 256 0, 8, 8⟩ none none 120 STANDARD).1 = none) ∧
    ((0 : ℤ) = 0 ∧
      (updateAsciiOutput ⟨List.replicate 256 5, 8, 8⟩ none none 0 MINIMAL).1 = some "") :=
  ⟨⟨by norm_num, by norm_num, by norm_num,
    (degenerate_grid_C1 ⟨List.replicate 256 0, 8, 8⟩ none none 120 STANDARD).1
      (by norm_num) (by norm_num) (by norm_num)⟩,
   ⟨rfl, (degenerate_grid_C1 ⟨List.replicate 256 5, 8, 8⟩ none none 0 MINIMAL).2 rfl⟩⟩

/-! ### Analysis of the lightness curve -/

/-- Cube of a nonnegative real recovered through the cube root. -/
theorem cbrt_of_cube (q : ℝ) (hq : 0 ≤ q) : (q ^ (3 : ℕ)) ^ ((1 : ℝ) / 3) = q := by
  rw [← Real.rpow_natCast q 3, ← Real.rpow_mul hq]
  norm_num

/-- The cube root is monotone on nonnegatives. -/
theorem cbrt_le_cbrt {a b : ℝ} (ha : 0 ≤ a) (hab : a ≤ b) :
    a ^ ((1 : ℝ) / 3) ≤ b ^ ((1 : ℝ) / 3) :=
  Real.rpow_le_rpow ha hab (by norm_num)

/-- The base of the power branch is nonnegative whenever the input is. -/
theorem srgb_base_nonneg {c : ℝ} (hc : 0 ≤ c) :
    (0 : ℝ) ≤ (c / 255 + 0.055) / 1.055 :=
  div_nonneg (add_nonneg (by positivity) (by norm_num)) (by norm_num)

/-- The sRGB decoding curve is nonnegative on nonnegative inputs. -/
theorem srgbToLinear_nonneg {c : ℝ} (hc : 0 ≤ c) : 0 ≤ srgbToLinear c := by
  rw [srgbToLinear]
  by_cases h : c / 255 ≤ 0.04045
  · rw [if_pos h]
    positivity
  · rw [if_neg h]
    exact Real.rpow_nonneg (srgb_base_nonneg hc) _

/-- `srgbToLinear 0 = 0`. -/
theorem srgbToLinear_zero : srgbToLinear 0 = 0 := by
  rw [srgbToLinear]
  norm_num

/-- `srgbToLinear 255 = 1` (the power branch at base exactly 1). -/
theorem srgbToLinear_255 : srgbToLinear 255 = 1 := by
  rw [srgbToLinear]
  have h : ¬((255 : ℝ) / 255 ≤ 0.04045) := by norm_num
  rw [if_neg h, show ((255 : ℝ) / 255 + 0.055) / 1.055 = 1 by norm_num, Real.one_rpow]

/-- The sRGB decoding curve is at most 1 on `[0, 255]`. -/
theorem srgbToLinear_le_one {c : ℝ} (hc0 : 0 ≤ c) (hc : c ≤ 255) :
    srgbToLinear c ≤ 1 := by
  have hs1 : c / 255 ≤ 1 := by
    rw [div_le_one (by norm_num : (0 : ℝ) < 255)]
    exact hc
  rw [srgbToLinear]
  by_cases h : c / 255 ≤ 0.04045
  · rw [if_pos h]
    rw [div_le_one (by norm_num : (0 : ℝ) < 12.92)]
    linarith
  · rw [if_neg h]
    apply Real.rpow_le_one (srgb_base_nonneg hc0) _ (by norm_num)
    rw [div_le_one (by norm_num : (0 : ℝ) < 1.055)]
    linarith

/-- The two branches of the sRGB curve meet consistently at the
threshold: the linear value there does not exceed the power value. -/
theorem srgb_junction_le :
    (0.04045 : ℝ) / 12.92 ≤ (((0.04045 : ℝ) + 0.055) / 1.055) ^ (2.4 : ℝ) := by
  have hbase : (0 : ℝ) ≤ ((0.04045 : ℝ) + 0.055) / 1.055 := by norm_num
  have h12 : ((((0.04045 : ℝ) + 0.055) / 1.055) ^ (2.4 : ℝ)) ^ (5 : ℕ) =
      (((0.04045 : ℝ) + 0.055) / 1.055) ^ (12 : ℕ) := by
    rw [← Real.rpow_natCast ((((0.04045 : ℝ) + 0.055) / 1.055) ^ (2.4 : ℝ)) 5,
        ← Real.rpow_mul hbase, ← Real.rpow_natCast (((0.04045 : ℝ) + 0.055) / 1.055) 12]
    norm_num
  have key : ((0.04045 : ℝ) / 12.92) ^ (5 : ℕ) ≤
      ((((0.04045 : ℝ) + 0.055) / 1.055) ^ (2.4 : ℝ)) ^ (5 : ℕ) := by
    rw [h12]
    norm_num
  exact le_of_pow_le_pow_left₀ (by norm_num) (Real.rpow_nonneg hbase _) key

/-- The sRGB decoding curve is monotone on nonnegative inputs. -/
theorem srgbToLinear_mono {a b : ℝ} (ha : 0 ≤ a) (hab : a ≤ b) :
    srgbToLinear a ≤ srgbToLinear b := by
  have hdiv : a / 255 ≤ b / 255 := by gcongr
  rw [srgbToLinear, srgbToLinear]
  by_cases h1 : a / 255 ≤ 0.04045 <;> by_cases h2 : b / 255 ≤ 0.04045
  · rw [if_pos h1, if_pos h2]
    gcongr
  · rw [if_pos h1, if_neg h2]
    calc a / 255 / 12.92 ≤ (0.04045 : ℝ) / 12.92 := by gcongr
    _ ≤ (((0.04045 : ℝ) + 0.055) / 1.055) ^ (2.4 : ℝ) := srgb_junction_le
    _ ≤ ((b / 255 + 0.055) / 1.055) ^ (2.4 : ℝ) := by
        apply Real.rpow_le_rpow (by norm_num) _ (by norm_num)
        have hb2 : (0.04045 : ℝ) ≤ b / 255 := le_of_not_le h2
        gcongr
  · exact absurd (le_trans hdiv h2) h1
  · rw [if_neg h1, if_neg h2]
    apply Real.rpow_le_rpow (srgb_base_nonneg ha) _ (by norm_num)
    gcongr

/-- L* is nonnegative on nonnegative luminance. -/
theorem labLOfY_nonneg {y : ℝ} (hy : 0 ≤ y) : 0 ≤ labLOfY y := by
  rw [labLOfY]
  by_cases h : y > 0.008856
  · rw [if_pos h]
    have h1 : ((64 : ℝ) / 24389) ^ ((1 : ℝ) / 3) ≤ y ^ ((1 : ℝ) / 3) :=
      cbrt_le_cbrt (by norm_num) (by linarith)
    have h2 : ((64 : ℝ) / 24389) ^ ((1 : ℝ) / 3) = 4 / 29 := by
      rw [show ((64 : ℝ) / 24389) = (4 / 29 : ℝ) ^ (3 : ℕ) by norm_num]
      exact cbrt_of_cube _ (by norm_num)
    nlinarith [h1, h2]
  · rw [if_neg h]
    linarith

/-- L* is at most 100 on luminance at most 1. -/
theorem labLOfY_le_100 {y : ℝ} (hy : y ≤ 1) : labLOfY y ≤ 100 := by
  rw [labLOfY]
  by_cases h : y > 0.008856
  · rw [if_pos h]
    have h1 : y ^ ((1 : ℝ) / 3) ≤ 1 := Real.rpow_le_one (by linarith) hy (by norm_num)
    linarith
  · rw [if_neg h]
    push_neg at h
    linarith

/-- L* is strictly below 100 on luminance strictly below 1. -/
theorem labLOfY_lt_100 {y : ℝ} (hy0 : 0 ≤ y) (hy : y < 1) : labLOfY y < 100 := by
  rw [labLOfY]
  by_cases h : y > 0.008856
  · rw [if_pos h]
    have h1 : y ^ ((1 : ℝ) / 3) < 1 := Real.rpow_lt_one hy0 hy (by norm_num)
    linarith
  · rw [if_neg h]
    push_neg at h
    linarith

/-- The monotonicity the code actually enjoys across the L* branch
threshold: the two branches disagree by a hair at `y = 0.008856` (the
power branch is *lower* just above the threshold), but a relative
luminance step of at least `256/255` — the smallest step a byte-valued
pixel scale can produce — clears the gap. -/
theorem labLOfY_le_labLOfY {y1 y2 : ℝ} (h0 : 0 ≤ y1) (h12 : y1 ≤ y2)
    (hstep : y1 ≤ 0.008856 → 0.008856 < y2 → (256 / 255 : ℝ) * y1 ≤ y2) :
    labLOfY y1 ≤ labLOfY y2 := by
  rw [labLOfY, labLOfY]
  by_cases h1 : y1 > 0.008856 <;> by_cases h2 : y2 > 0.008856
  · rw [if_pos h1, if_pos h2]
    have := cbrt_le_cbrt h0 h12
    linarith
  · exact absurd (lt_of_lt_of_le h1 h12) h2
  · rw [if_neg h1, if_pos h2]
    push_neg at h1
    have hs := hstep h1 h2
    have hq0 : (0 : ℝ) ≤ (903.3 * y1 + 16) / 116 := by positivity
    have hkey : ((903.3 * y1 + 16) / 116) ^ (3 : ℕ) ≤ y2 := by
      by_cases hc : y1 ≤ 0.0088559
      · have hmono : ((903.3 * y1 + 16) / 116) ^ (3 : ℕ) ≤
            ((903.3 * 0.0088559 + 16) / 116 : ℝ) ^ (3 : ℕ) := by
          apply pow_le_pow_left₀ hq0
          linarith
        have hnum : ((903.3 * 0.0088559 + 16) / 116 : ℝ) ^ (3 : ℕ) ≤ 0.008856 := by
          norm_num
        linarith
      · push_neg at hc
        have hmono : ((903.3 * y1 + 16) / 116) ^ (3 : ℕ) ≤
            ((903.3 * 0.008856 + 16) / 116 : ℝ) ^ (3 : ℕ) := by
          apply pow_le_pow_left₀ hq0
          linarith
        have hnum : ((903.3 * 0.008856 + 16) / 116 : ℝ) ^ (3 : ℕ) ≤
            (256 / 255 : ℝ) * 0.0088559 := by
          norm_num
        nlinarith [hs]
    have h3 : (903.3 * y1 + 16) / 116 ≤ y2 ^ ((1 : ℝ) / 3) := by
      calc (903.3 * y1 + 16) / 116 = (((903.3 * y1 + 16) / 116) ^ (3 : ℕ)) ^ ((1 : ℝ) / 3) :=
            (cbrt_of_cube _ hq0).symm
      _ ≤ y2 ^ ((1 : ℝ) / 3) := cbrt_le_cbrt (by positivity) hkey
    linarith
  · rw [if_neg h1, if_neg h2]
    linarith

/-- Bernoulli's inequality specialised: `12 * s^(5/12) ≤ 5 * s + 7` for `s ≥ 1`. -/
theorem twelve_rpow_le {s : ℝ} (hs : 1 ≤ s) :
    12 * s ^ ((5 : ℝ) / 12) ≤ 5 * s + 7 := by
  have hx : (-1 : ℝ) ≤ s - 1 := by linarith
  have h := rpow_one_add_le_one_add_mul_self hx
    (by norm_num : (0 : ℝ) ≤ 5 / 12) (by norm_num : (5 : ℝ) / 12 ≤ 1)
  rw [show (1 : ℝ) + (s - 1) = s by ring] at h
  linarith

/-- Star-shapedness of the sRGB power branch: scaling the (shifted)
argument up from any base point at or above the branch threshold scales
the value at least proportionally. -/
theorem pow_branch_superlinear {t u : ℝ} (ht : 0.04045 ≤ t) (htu : t ≤ u) :
    (u / t) * ((t + 0.055) / 1.055) ^ (2.4 : ℝ) ≤
      ((u + 0.055) / 1.055) ^ (2.4 : ℝ) := by
  have ht0 : (0 : ℝ) < t := lt_of_lt_of_le (by norm_num) ht
  set s := u / t with hsdef
  have hs1 : 1 ≤ s := (one_le_div ht0).mpr htu
  have hs0 : 0 ≤ s := le_trans zero_le_one hs1
  set σ := s ^ ((5 : ℝ) / 12) with hσdef
  have hσ0 : 0 ≤ σ := Real.rpow_nonneg hs0 _
  have hbern : 12 * σ ≤ 5 * s + 7 := twelve_rpow_le hs1
  have hu : u = s * t := by
    rw [hsdef]
    field_simp
  -- σ * (t + 0.055) ≤ u + 0.055
  have hkey : σ * (t + 0.055) ≤ u + 0.055 := by
    have e1 : s - σ ≥ (7 / 12 : ℝ) * (s - 1) := by linarith
    have e2 : σ - 1 ≤ (5 / 12 : ℝ) * (s - 1) := by linarith
    have e3 : t * (s - σ) ≥ t * ((7 / 12 : ℝ) * (s - 1)) :=
      mul_le_mul_of_nonneg_left e1 (le_of_lt ht0)
    have e4 : t * ((7 / 12 : ℝ) * (s - 1)) ≥ 0.04045 * ((7 / 12 : ℝ) * (s - 1)) := by
      have hs1' : (0 : ℝ) ≤ (7 / 12 : ℝ) * (s - 1) := by nlinarith
      nlinarith
    have e5 : (0.055 : ℝ) * (σ - 1) ≤ 0.055 * ((5 / 12 : ℝ) * (s - 1)) := by nlinarith
    nlinarith [e3, e4, e5]
  have hb0 : (0 : ℝ) ≤ (t + 0.055) / 1.055 := by positivity
  have hσb0 : (0 : ℝ) ≤ σ * ((t + 0.055) / 1.055) := mul_nonneg hσ0 hb0
  have hmono : (σ * ((t + 0.055) / 1.055)) ^ (2.4 : ℝ) ≤
      ((u + 0.055) / 1.055) ^ (2.4 : ℝ) := by
    apply Real.rpow_le_rpow hσb0 _ (by norm_num)
    rw [show σ * ((t + 0.055) / 1.055) = σ * (t + 0.055) / 1.055 by ring]
    gcongr
  have hsplit : (σ * ((t + 0.055) / 1.055)) ^ (2.4 : ℝ) =
      σ ^ (2.4 : ℝ) * ((t + 0.055) / 1.055) ^ (2.4 : ℝ) :=
    Real.mul_rpow hσ0 hb0
  have hσpow : σ ^ (2.4 : ℝ) = s := by
    rw [hσdef, ← Real.rpow_mul hs0]
    norm_num
  calc (u / t) * ((t + 0.055) / 1.055) ^ (2.4 : ℝ)
      = σ ^ (2.4 : ℝ) * ((t + 0.055) / 1.055) ^ (2.4 : ℝ) := by rw [hσpow]
  _ = (σ * ((t + 0.055) / 1.055)) ^ (2.4 : ℝ) := hsplit.symm
  _ ≤ ((u + 0.055) / 1.055) ^ (2.4 : ℝ) := hmono

/-- Superlinearity of the whole sRGB decoding curve under upscaling:
`k * lin v ≤ lin (k * v)` for `v ≥ 0`, `k ≥ 1`.  (The curve is convex
with an upward jump at the branch threshold, and star-shaped from 0.) -/
theorem srgbToLinear_superlinear {v k : ℝ} (hv : 0 ≤ v) (hk : 1 ≤ k) :
    k * srgbToLinear v ≤ srgbToLinear (k * v) := by
  have hk0 : (0 : ℝ) < k := lt_of_lt_of_le one_pos hk
  have hkv : v ≤ k * v := le_mul_of_one_le_left hv hk
  have hkv0 : 0 ≤ k * v := le_trans hv hkv
  rw [srgbToLinear, srgbToLinear]
  by_cases h2 : k * v / 255 ≤ 0.04045
  · have h1 : v / 255 ≤ 0.04045 := le_trans (by gcongr) h2
    rw [if_pos h1, if_pos h2]
    rw [show k * v / 255 / 12.92 = k * (v / 255 / 12.92) by ring]
  · rw [if_neg h2]
    by_cases h1 : v / 255 ≤ 0.04045
    · rw [if_pos h1]
      have hth : (0.04045 : ℝ) ≤ k * v / 255 := le_of_lt (lt_of_not_le h2)
      have hsup := pow_branch_superlinear (le_refl (0.04045 : ℝ)) hth
      have hpos : (0 : ℝ) ≤ k * v / 255 / 0.04045 := by positivity
      have hchain : (k * v / 255 / 0.04045) * ((0.04045 : ℝ) / 12.92) ≤
          (k * v / 255 / 0.04045) * (((0.04045 : ℝ) + 0.055) / 1.055) ^ (2.4 : ℝ) :=
        mul_le_mul_of_nonneg_left srgb_junction_le hpos
      have heq : (k * v / 255 / 0.04045) * ((0.04045 : ℝ) / 12.92) = k * v / 255 / 12.92 := by
        field_simp
        ring
      calc k * (v / 255 / 12.92) = k * v / 255 / 12.92 := by ring
      _ = (k * v / 255 / 0.04045) * ((0.04045 : ℝ) / 12.92) := heq.symm
      _ ≤ (k * v / 255 / 0.04045) * (((0.04045 : ℝ) + 0.055) / 1.055) ^ (2.4 : ℝ) := hchain
      _ ≤ ((k * v / 255 + 0.055) / 1.055) ^ (2.4 : ℝ) := hsup
    · rw [if_neg h1]
      have hth : (0.04045 : ℝ) ≤ v / 255 := le_of_lt (lt_of_not_le h1)
      have hsup := pow_branch_superlinear hth (by gcongr : v / 255 ≤ k * v / 255)
      have hv0 : (0 : ℝ) < v / 255 := lt_of_lt_of_le (by norm_num) hth
      have hvne : v ≠ 0 := ne_of_gt (by nlinarith)
      have heq : k * v / 255 / (v / 255) = k := by
        field_simp
      rw [heq] at hsup
      exact hsup

/-- Monotonicity of a corrected-and-linearized channel in the raw value. -/
theorem chan_mono {c1 c2 f : ℝ} (h0 : 0 ≤ c1) (hf : 0 ≤ f) (h12 : c1 ≤ c2) :
    srgbToLinear (min 255 (c1 * f)) ≤ srgbToLinear (min 255 (c2 * f)) :=
  srgbToLinear_mono (le_min (by norm_num) (mul_nonneg h0 hf))
    (min_le_min (le_refl _) (mul_le_mul_of_nonneg_right h12 hf))

/-- A byte-granularity upscale moves a dim corrected channel's linear
value up by at least the same `256/255` factor (saturation included,
thanks to the dimness bound). -/
theorem chan_step {c f k : ℝ} (hc : 0 ≤ c) (hf : 0 ≤ f) (hk : 256 / 255 ≤ k)
    (hsmall : srgbToLinear (min 255 (c * f)) ≤ 255 / 256) :
    (256 / 255 : ℝ) * srgbToLinear (min 255 (c * f)) ≤
      srgbToLinear (min 255 (k * c * f)) := by
  have hk1 : (1 : ℝ) ≤ k := le_trans (by norm_num) hk
  have hv0 : 0 ≤ c * f := mul_nonneg hc hf
  have hlin0 : 0 ≤ srgbToLinear (min 255 (c * f)) :=
    srgbToLinear_nonneg (le_min (by norm_num) hv0)
  by_cases hA : (255 : ℝ) ≤ c * f
  · exfalso
    have : min (255 : ℝ) (c * f) = 255 := min_eq_left hA
    rw [this, srgbToLinear_255] at hsmall
    norm_num at hsmall
  · have hAmin : min (255 : ℝ) (c * f) = c * f :=
      min_eq_right (le_of_lt (lt_of_not_le hA))
    rw [hAmin] at hsmall hlin0 ⊢
    by_cases hB : (255 : ℝ) ≤ k * c * f
    · have hBmin : min (255 : ℝ) (k * c * f) = 255 := min_eq_left hB
      rw [hBmin, srgbToLinear_255]
      linarith
    · have hBmin : min (255 : ℝ) (k * c * f) = k * c * f :=
        min_eq_right (le_of_lt (lt_of_not_le hB))
      rw [hBmin, show k * c * f = k * (c * f) by ring]
      calc (256 / 255 : ℝ) * srgbToLinear (c * f) ≤ k * srgbToLinear (c * f) :=
            mul_le_mul_of_nonneg_right hk hlin0
      _ ≤ srgbToLinear (k * (c * f)) := srgbToLinear_superlinear hv0 hk1

/-- A strict upscale between byte channel values steps by at least
`256/255` (the coarsest nonzero byte ratio). -/
theorem byte_scale_step {k : ℝ} (c c2 : ℕ) (hc0 : 0 < c) (hc255 : c ≤ 255)
    (hcast : (c2 : ℝ) = k * c) (hk1 : 1 < k) : 256 / 255 ≤ k := by
  have hcR : (0 : ℝ) < c := by exact_mod_cast hc0
  have hlt : (c : ℝ) < c2 := by
    rw [hcast]
    nlinarith
  have hltN : c < c2 := by exact_mod_cast hlt
  have hsucc : (c : ℝ) + 1 ≤ c2 := by exact_mod_cast Nat.succ_le_of_lt hltN
  have h255 : (c : ℝ) ≤ 255 := by exact_mod_cast hc255
  rw [hcast] at hsucc
  rw [div_le_iff₀ (by norm_num : (0 : ℝ) < 255)]
  nlinarith

/-- Per-pixel lightness is monotone under uniform upscaling of a byte
pixel to another byte pixel, for any nonnegative color correction.  The
L* branch threshold has a hairline downward jump, but byte granularity
steps the luminance past it (see `labLOfY_le_labLOfY`). -/
theorem rgbToLabL_scale_mono (corr : ColorCorrection)
    (hfR : 0 ≤ (corr.wbR : ℝ) * (corr.tempR : ℝ))
    (hfG : 0 ≤ (corr.wbG : ℝ) * (corr.tempG : ℝ))
    (hfB : 0 ≤ (corr.wbB : ℝ) * (corr.tempB : ℝ))
    {k : ℝ} (hk : 1 ≤ k)
    (r g b r2 g2 b2 : ℕ) (hr255 : r ≤ 255) (hg255 : g ≤ 255) (hb255 : b ≤ 255)
    (hr : (r2 : ℝ) = k * r) (hg : (g2 : ℝ) = k * g) (hb : (b2 : ℝ) = k * b) :
    rgbToLabL corr r g b ≤ rgbToLabL corr r2 g2 b2 := by
  simp only [rgbToLabL, mul_assoc]
  rw [hr, hg, hb]
  have h0R : (0 : ℝ) ≤ min 255 ((r : ℝ) * ((corr.wbR : ℝ) * (corr.tempR : ℝ))) :=
    le_min (by norm_num) (mul_nonneg (Nat.cast_nonneg r) hfR)
  have h0G : (0 : ℝ) ≤ min 255 ((g : ℝ) * ((corr.wbG : ℝ) * (corr.tempG : ℝ))) :=
    le_min (by norm_num) (mul_nonneg (Nat.cast_nonneg g) hfG)
  have h0B : (0 : ℝ) ≤ min 255 ((b : ℝ) * ((corr.wbB : ℝ) * (corr.tempB : ℝ))) :=
    le_min (by norm_num) (mul_nonneg (Nat.cast_nonneg b) hfB)
  have hLR1 := srgbToLinear_nonneg h0R
  have hLG1 := srgbToLinear_nonneg h0G
  have hLB1 := srgbToLinear_nonneg h0B
  have hmR : srgbToLinear (min 255 ((r : ℝ) * ((corr.wbR : ℝ) * (corr.tempR : ℝ)))) ≤
      srgbToLinear (min 255 (k * (r : ℝ) * ((corr.wbR : ℝ) * (corr.tempR : ℝ)))) :=
    chan_mono (Nat.cast_nonneg r) hfR (le_mul_of_one_le_left (Nat.cast_nonneg r) hk)
  have hmG : srgbToLinear (min 255 ((g : ℝ) * ((corr.wbG : ℝ) * (corr.tempG : ℝ)))) ≤
      srgbToLinear (min 255 (k * (g : ℝ) * ((corr.wbG : ℝ) * (corr.tempG : ℝ)))) :=
    chan_mono (Nat.cast_nonneg g) hfG (le_mul_of_one_le_left (Nat.cast_nonneg g) hk)
  have hmB : srgbToLinear (min 255 ((b : ℝ) * ((corr.wbB : ℝ) * (corr.tempB : ℝ)))) ≤
      srgbToLinear (min 255 (k * (b : ℝ) * ((corr.wbB : ℝ) * (corr.tempB : ℝ)))) :=
    chan_mono (Nat.cast_nonneg b) hfB (le_mul_of_one_le_left (Nat.cast_nonneg b) hk)
  apply labLOfY_le_labLOfY
  · linarith
  · linarith
  · intro hy1 hy2
    by_cases htriv : (r = 0 ∧ g = 0 ∧ b = 0) ∨ k = 1
    · exfalso
      have hy12 : (0.2126 : ℝ) * srgbToLinear (min 255 (k * (r : ℝ) * ((corr.wbR : ℝ) * (corr.tempR : ℝ)))) +
          0.7152 * srgbToLinear (min 255 (k * (g : ℝ) * ((corr.wbG : ℝ) * (corr.tempG : ℝ)))) +
          0.0722 * srgbToLinear (min 255 (k * (b : ℝ) * ((corr.wbB : ℝ) * (corr.tempB : ℝ)))) =
          0.2126 * srgbToLinear (min 255 ((r : ℝ) * ((corr.wbR : ℝ) * (corr.tempR : ℝ)))) +
          0.7152 * srgbToLinear (min 255 ((g : ℝ) * ((corr.wbG : ℝ) * (corr.tempG : ℝ)))) +
          0.0722 * srgbToLinear (min 255 ((b : ℝ) * ((corr.wbB : ℝ) * (corr.tempB : ℝ)))) := by
        rcases htriv with ⟨h1, h2, h3⟩ | h1
        · subst h1; subst h2; subst h3
          norm_num
        · subst h1
          norm_num
      rw [hy12] at hy2
      linarith
    · push_neg at htriv
      obtain ⟨hnz, hkne⟩ := htriv
      have hk1 : 1 < k := lt_of_le_of_ne hk (Ne.symm hkne)
      have hk' : (256 / 255 : ℝ) ≤ k := by
        rcases Nat.eq_zero_or_pos r with hr0 | hr0
        · rcases Nat.eq_zero_or_pos g with hg0 | hg0
          · rcases Nat.eq_zero_or_pos b with hb0 | hb0
            · exact absurd hb0 (hnz hr0 hg0)
            · exact byte_scale_step b b2 hb0 hb255 hb hk1
          · exact byte_scale_step g g2 hg0 hg255 hg hk1
        · exact byte_scale_step r r2 hr0 hr255 hr hk1
      have hsR : srgbToLinear (min 255 ((r : ℝ) * ((corr.wbR : ℝ) * (corr.tempR : ℝ)))) ≤
          255 / 256 := by linarith
      have hsG : srgbToLinear (min 255 ((g : ℝ) * ((corr.wbG : ℝ) * (corr.tempG : ℝ)))) ≤
          255 / 256 := by linarith
      have hsB : srgbToLinear (min 255 ((b : ℝ) * ((corr.wbB : ℝ) * (corr.tempB : ℝ)))) ≤
          255 / 256 := by linarith
      have hcR := chan_step (Nat.cast_nonneg r) hfR hk' hsR
      have hcG := chan_step (Nat.cast_nonneg g) hfG hk' hsG
      have hcB := chan_step (Nat.cast_nonneg b) hfB hk' hsB
      linarith

/-! ### C9: monotonicity of the Lightness Extractor -/

/-- C9: for a fixed (nonnegative) color correction, scaling a byte pixel
uniformly by a factor `k ≥ 1` onto another byte pixel cannot decrease the
per-pixel L*; consequently cell averages over blocks related pixel-wise
this way are ordered the same. -/
theorem lightness_monotone_C9 (corr : ColorCorrection)
    (hfR : 0 ≤ (corr.wbR : ℝ) * (corr.tempR : ℝ))
    (hfG : 0 ≤ (corr.wbG : ℝ) * (corr.tempG : ℝ))
    (hfB : 0 ≤ (corr.wbB : ℝ) * (corr.tempB : ℝ))
    {k : ℝ} (hk : 1 ≤ k) :
    (∀ r g b r2 g2 b2 : ℕ, r ≤ 255 → g ≤ 255 → b ≤ 255 →
      (r2 : ℝ) = k * r → (g2 : ℝ) = k * g → (b2 : ℝ) = k * b →
      rgbToLabL corr r g b ≤ rgbToLabL corr r2 g2 b2) ∧
    (∀ (d1 d2 : List ℕ) (imgW cw ch x y : ℕ),
      (∀ i, d1.getD i 0 ≤ 255) →
      (∀ i, ((d2.getD i 0 : ℕ) : ℝ) = k * (d1.getD i 0 : ℕ)) →
      cellBrightness d1 imgW corr cw ch x y ≤ cellBrightness d2 imgW corr cw ch x y) := by
  constructor
  · intro r g b r2 g2 b2 h1 h2 h3 h4 h5 h6
    exact rgbToLabL_scale_mono corr hfR hfG hfB hk r g b r2 g2 b2 h1 h2 h3 h4 h5 h6
  · intro d1 d2 imgW cw ch x y hb1 hscale
    rw [cellBrightness, cellBrightness]
    have hsum : (∑ cy ∈ Finset.range ch, ∑ cx ∈ Finset.range cw,
        rgbToLabL corr
          (d1.getD (((y * ch + cy) * imgW + (x * cw + cx)) * 4) 0)
          (d1.getD (((y * ch + cy) * imgW + (x * cw + cx)) * 4 + 1) 0)
          (d1.getD (((y * ch + cy) * imgW + (x * cw + cx)) * 4 + 2) 0)) ≤
        ∑ cy ∈ Finset.range ch, ∑ cx ∈ Finset.range cw,
        rgbToLabL corr
          (d2.getD (((y * ch + cy) * imgW + (x * cw + cx)) * 4) 0)
          (d2.getD (((y * ch + cy) * imgW + (x * cw + cx)) * 4 + 1) 0)
          (d2.getD (((y * ch + cy) * imgW + (x * cw + cx)) * 4 + 2) 0) := by
      apply Finset.sum_le_sum
      intro cy _
      apply Finset.sum_le_sum
      intro cx _
      exact rgbToLabL_scale_mono corr hfR hfG hfB hk _ _ _ _ _ _
        (hb1 _) (hb1 _) (hb1 _) (hscale _) (hscale _) (hscale _)
    rcases Nat.eq_zero_or_pos (ch * cw) with hc0 | hc0
    · rw [hc0]
      norm_num
    · have hcpos : (0 : ℝ) < ((ch * cw : ℕ) : ℝ) := by exact_mod_cast hc0
      rw [div_le_div_iff_of_pos_right hcpos]
      exact hsum

/-- Witness for C9 at the identity correction, `k = 2`, pixel
`(10,20,30) ↦ (20,40,60)` and a 1×1 cell. -/
theorem lightness_monotone_C9_witness :
    (0 : ℝ) ≤ (((1 : ℚ) : ℝ) * ((1 : ℚ) : ℝ)) ∧ (1 : ℝ) ≤ 2 ∧
    rgbToLabL ⟨1, 1, 1, 1, 1, 1⟩ ((10 : ℕ) : ℝ) ((20 : ℕ) : ℝ) ((30 : ℕ) : ℝ) ≤
      rgbToLabL ⟨1, 1, 1, 1, 1, 1⟩ ((20 : ℕ) : ℝ) ((40 : ℕ) : ℝ) ((60 : ℕ) : ℝ) ∧
    cellBrightness [10, 20, 30, 0] 1 ⟨1, 1, 1, 1, 1, 1⟩ 1 1 0 0 ≤
      cellBrightness [20, 40, 60, 0] 1 ⟨1, 1, 1, 1, 1, 1⟩ 1 1 0 0 := by
  have hbyte : ∀ i, ([10, 20, 30, 0] : List ℕ).getD i 0 ≤ 255 := by
    intro i
    match i with
    | 0 | 1 | 2 | 3 => norm_num [List.getD]
    | n + 4 => simp [List.getD_eq_getElem?_getD]
  have hsc : ∀ i, ((([20, 40, 60, 0] : List ℕ).getD i 0 : ℕ) : ℝ) =
      2 * (([10, 20, 30, 0] : List ℕ).getD i 0 : ℕ) := by
    intro i
    match i with
    | 0 | 1 | 2 | 3 => norm_num [List.getD]
    | n + 4 => simp [List.getD_eq_getElem?_getD]
  refine ⟨by norm_num, by norm_num, ?_, ?_⟩
  · exact (lightness_monotone_C9 ⟨1, 1, 1, 1, 1, 1⟩ (by norm_num) (by norm_num) (by norm_num)
      (by norm_num : (1 : ℝ) ≤ 2)).1 10 20 30 20 40 60
      (by norm_num) (by norm_num) (by norm_num)
      (by push_cast; norm_num) (by push_cast; norm_num) (by push_cast; norm_num)
  · exact (lightness_monotone_C9 ⟨1, 1, 1, 1, 1, 1⟩ (by norm_num) (by norm_num) (by norm_num)
      (by norm_num : (1 : ℝ) ≤ 2)).2 [10, 20, 30, 0] [20, 40, 60, 0] 1 1 1 0 0 hbyte hsc

/-! ### Shape of the output text -/

/-- Floor of a rational quotient of naturals is natural division. -/
theorem floor_nat_div (m n : ℕ) : ⌊((m : ℚ)) / ((n : ℚ))⌋ = ((m / n : ℕ) : ℤ) := by
  rw [show ((m : ℚ)) = (((m : ℕ) : ℤ) : ℚ) by push_cast; rfl]
  rw [Rat.floor_intCast_div_natCast]
  exact (Int.ofNat_div m n).symm

/-- On the non-degenerate path (`gridWidth ≥ 1`, `cellWidth ≥ 1`) the
action publishes exactly the serialized character grid with the derived
dimensions `cellWidth = w / gridWidth`, `cellHeight = cellWidth * 2`,
`gridHeight = h / cellHeight`. -/
theorem updateAsciiOutput_pos (img : ImageData) (mask : Option ImageData)
    (prev : Option (List ℕ)) (aw : ℤ) (cs : List Char)
    (haw : 1 ≤ aw) (hcw : 1 ≤ img.width / aw.toNat) :
    updateAsciiOutput img mask prev aw cs =
      (some (String.mk (asciiArtChars (composite img mask prev).1.data img.width
        (calibrate (composite img mask prev).1.data img.width img.height) cs
        aw.toNat (img.width / aw.toNat) (img.width / aw.toNat * 2)
        (img.height / (img.width / aw.toNat * 2)))),
       (composite img mask prev).2) := by
  have hw := (composite_dims img mask prev).1
  have hh := (composite_dims img mask prev).2
  have hAZ : ((aw.toNat : ℕ) : ℤ) = aw := Int.toNat_of_nonneg (by linarith)
  have hawq : ((aw : ℤ) : ℚ) = ((aw.toNat : ℕ) : ℚ) := by
    rw [← hAZ]
    push_cast
    rfl
  have hne : ((aw : ℤ) : ℚ) ≠ 0 := by
    have h1 : (0 : ℤ) < aw := by linarith
    have h2 : (0 : ℚ) < ((aw : ℤ) : ℚ) := by exact_mod_cast h1
    exact ne_of_gt h2
  have hcwfl : jsFloor (jsDiv (JSNum.num (img.width : ℚ))
      (JSNum.num ((aw : ℤ) : ℚ))) = JSNum.num ((img.width / aw.toNat : ℕ) : ℚ) := by
    simp only [jsDiv, if_neg hne, jsFloor]
    congr 1
    rw [hawq, floor_nat_div]
    push_cast
    rfl
  have hchfl : jsFloor (jsMul (JSNum.num ((img.width / aw.toNat : ℕ) : ℚ)) (JSNum.num 2)) =
      JSNum.num ((img.width / aw.toNat * 2 : ℕ) : ℚ) := by
    simp only [jsMul, jsFloor]
    congr 1
    rw [show (((img.width / aw.toNat : ℕ) : ℚ)) * 2 = ((img.width / aw.toNat * 2 : ℕ) : ℚ) by
      push_cast; ring]
    rw [Int.floor_natCast]
    rfl
  have hrowsfl : jsFloor (jsDiv (JSNum.num (img.height : ℚ))
      (JSNum.num ((img.width / aw.toNat * 2 : ℕ) : ℚ))) =
      JSNum.num ((img.height / (img.width / aw.toNat * 2) : ℕ) : ℚ) := by
    have hch0 : (((img.width / aw.toNat * 2 : ℕ) : ℚ)) ≠ 0 := by
      have : 2 ≤ img.width / aw.toNat * 2 := by omega
      positivity
    simp only [jsDiv, if_neg hch0, jsFloor]
    congr 1
    rw [floor_nat_div]
    rfl
  have halloc : jsToIndex (jsMul (JSNum.num ((aw : ℤ) : ℚ))
      (JSNum.num ((img.height / (img.width / aw.toNat * 2) : ℕ) : ℚ))) =
      some (((aw : ℤ) * (img.height / (img.width / aw.toNat * 2) : ℕ)).toNat) := by
    simp only [jsMul, jsToIndex]
    have hq0 : (0 : ℚ) ≤ ((aw : ℤ) : ℚ) * ((img.height / (img.width / aw.toNat * 2) : ℕ) : ℚ) := by
      have h1 : (0 : ℚ) ≤ ((aw : ℤ) : ℚ) := by
        exact_mod_cast le_trans zero_le_one haw
      positivity
    rw [if_neg (not_lt.mpr hq0)]
    congr 1
    generalize img.height / (img.width / aw.toNat * 2) = R
    rw [show ((aw : ℤ) : ℚ) * ((R : ℕ) : ℚ) = (((aw : ℤ) * (R : ℕ) : ℤ) : ℚ) by push_cast; ring]
    rw [Int.floor_intCast]
  have htrip1 : jsTripCount (JSNum.num ((img.width / aw.toNat : ℕ) : ℚ)) =
      img.width / aw.toNat := by
    rw [jsTripCount, Int.floor_natCast, Int.toNat_natCast]
  have htrip2 : jsTripCount (JSNum.num ((img.width / aw.toNat * 2 : ℕ) : ℚ)) =
      img.width / aw.toNat * 2 := by
    rw [jsTripCount, Int.floor_natCast, Int.toNat_natCast]
  have htrip3 : jsTripCount (JSNum.num ((img.height / (img.width / aw.toNat * 2) : ℕ) : ℚ)) =
      img.height / (img.width / aw.toNat * 2) := by
    rw [jsTripCount, Int.floor_natCast, Int.toNat_natCast]
  simp only [updateAsciiOutput, hw, hh, hcwfl, hchfl, hrowsfl, halloc, htrip1, htrip2, htrip3]

/-- The sharpened cell value is clamped into `[0, 100]`. -/
theorem sharpenedAt_bounds (data : List ℕ) (imgW : ℕ) (corr : ColorCorrection)
    (cw ch aw rows x y : ℕ) :
    0 ≤ sharpenedAt data imgW corr cw ch aw rows x y ∧
    sharpenedAt data imgW corr cw ch aw rows x y ≤ 100 := by
  simp only [sharpenedAt]
  exact ⟨le_max_left _ _, max_le (by norm_num) (min_le_left _ _)⟩

/-- The quantized ramp index of a clamped value is inside the ramp. -/
theorem charIndexOf_bounds (s : ℝ) (len : ℕ) (h0 : 0 ≤ s) (h100 : s ≤ 100)
    (hlen : 1 ≤ len) :
    0 ≤ charIndexOf s len ∧ charIndexOf s len ≤ (len : ℤ) - 1 := by
  have hlenR : (1 : ℝ) ≤ (len : ℝ) := by exact_mod_cast hlen
  constructor
  · apply Int.floor_nonneg.mpr
    apply mul_nonneg (by positivity)
    linarith
  · rw [charIndexOf]
    have h1 : s / 100 * ((len : ℝ) - 1) ≤ (len : ℝ) - 1 := by
      apply mul_le_of_le_one_left (by linarith)
      rw [div_le_one (by norm_num : (0 : ℝ) < 100)]
      exact h100
    calc ⌊s / 100 * ((len : ℝ) - 1)⌋ ≤ ⌊(len : ℝ) - 1⌋ := Int.floor_le_floor h1
    _ = (len : ℤ) - 1 := by
        rw [show ((len : ℝ) - 1) = (((len : ℤ) - 1 : ℤ) : ℝ) by push_cast; ring,
          Int.floor_intCast]

/-- With a nonempty ramp, every cell emits exactly one ramp character. -/
theorem cellChar_singleton (data : List ℕ) (imgW : ℕ) (corr : ColorCorrection)
    (charset : List Char) (cw ch aw rows x y : ℕ) (hlen : 1 ≤ charset.length) :
    ∃ n, n < charset.length ∧
      cellChar data imgW corr charset cw ch aw rows x y = [charset.getD n '\n'] := by
  obtain ⟨hs0, hs100⟩ := sharpenedAt_bounds data imgW corr cw ch aw rows x y
  obtain ⟨hge, hle⟩ := charIndexOf_bounds _ charset.length hs0 hs100 hlen
  set idx := charIndexOf (sharpenedAt data imgW corr cw ch aw rows x y) charset.length with hidx
  have hn : idx.toNat < charset.length := by omega
  refine ⟨idx.toNat, hn, ?_⟩
  rw [cellChar, ← hidx, if_neg (not_lt.mpr hge), List.getElem?_eq_getElem hn]
  rw [List.getD_eq_getElem charset '\n' hn]
  rfl

/-- Structure of the serialized output: a list of rows, each of `aw` ramp
characters, each row followed by one newline. -/
theorem asciiArtChars_shape (data : List ℕ) (imgW : ℕ) (corr : ColorCorrection)
    (charset : List Char) (aw cw ch rows : ℕ) (hlen : 1 ≤ charset.length) :
    ∃ rowsL : List (List Char),
      asciiArtChars data imgW corr charset aw cw ch rows =
        (rowsL.map (fun r => r ++ ['\n'])).flatten ∧
      rowsL.length = rows ∧ (∀ r ∈ rowsL, r.length = aw) ∧
      (∀ r ∈ rowsL, ∀ c ∈ r, c ∈ charset) := by
  refine ⟨(List.range rows).map (fun y =>
    ((List.range aw).map (fun x =>
      cellChar data imgW corr charset cw ch aw rows x y)).flatten), ?_, by simp, ?_, ?_⟩
  · rw [asciiArtChars, List.map_map]
    rfl
  · intro r hr
    obtain ⟨y, _, rfl⟩ := List.mem_map.mp hr
    rw [List.length_flatten, List.map_map]
    have hrepl : (List.range aw).map (List.length ∘ fun x =>
        cellChar data imgW corr charset cw ch aw rows x y) = List.replicate aw 1 := by
      apply List.eq_replicate_iff.mpr
      refine ⟨by simp, ?_⟩
      intro n hn
      obtain ⟨x, _, rfl⟩ := List.mem_map.mp hn
      obtain ⟨m, _, hm⟩ := cellChar_singleton data imgW corr charset cw ch aw rows x y hlen
      simp [Function.comp, hm]
    rw [hrepl, List.sum_replicate, smul_eq_mul, Nat.mul_one]
  · intro r hr c hc
    obtain ⟨y, _, rfl⟩ := List.mem_map.mp hr
    obtain ⟨m, hmem, hcm⟩ := List.mem_flatten.mp hc
    obtain ⟨x, _, rfl⟩ := List.mem_map.mp hmem
    obtain ⟨n, hn, hm⟩ := cellChar_singleton data imgW corr charset cw ch aw rows x y hlen
    rw [hm] at hcm
    rcases List.mem_singleton.mp hcm with rfl
    rw [List.getD_eq_getElem charset '\n' hn]
    exact List.getElem_mem hn

/-! ### C10: every output character is a newline or a ramp character -/

/-- C10: for a well-formed frame (`cellWidth ≥ 1`, hence `cellHeight ≥ 2`)
and a nonempty ramp, the clamp of the sharpened value into `[0, 100]`
keeps every quantized ramp index in bounds, so every character of the
published text is a newline or a character of the selected ramp. -/
theorem output_chars_in_ramp_C10 (img : ImageData) (mask : Option ImageData)
    (prev : Option (List ℕ)) (aw : ℤ) (cs : List Char)
    (hdata : img.data.length = 4 * (img.width * img.height))
    (haw : 1 ≤ aw) (hcw : 1 ≤ img.width / aw.toNat) (hlen : 1 ≤ cs.length) :
    ∀ s, (updateAsciiOutput img mask prev aw cs).1 = some s →
      ∀ c ∈ s.data, c = '\n' ∨ c ∈ cs := by
  intro s hs c hc
  rw [updateAsciiOutput_pos img mask prev aw cs haw hcw] at hs
  obtain ⟨rowsL, hart, _, _, hmem⟩ := asciiArtChars_shape
    (composite img mask prev).1.data img.width
    (calibrate (composite img mask prev).1.data img.width img.height) cs
    aw.toNat (img.width / aw.toNat) (img.width / aw.toNat * 2)
    (img.height / (img.width / aw.toNat * 2)) hlen
  have hsmk : s = String.mk (asciiArtChars (composite img mask prev).1.data img.width
      (calibrate (composite img mask prev).1.data img.width img.height) cs
      aw.toNat (img.width / aw.toNat) (img.width / aw.toNat * 2)
      (img.height / (img.width / aw.toNat * 2))) := by
    have h' : some (String.mk (asciiArtChars (composite img mask prev).1.data img.width
        (calibrate (composite img mask prev).1.data img.width img.height) cs
        aw.toNat (img.width / aw.toNat) (img.width / aw.toNat * 2)
        (img.height / (img.width / aw.toNat * 2)))) = some s := hs
    exact (Option.some_injective _ h').symm
  rw [hsmk] at hc
  rw [hart] at hc
  obtain ⟨m, hmrow, hcm⟩ := List.mem_flatten.mp hc
  obtain ⟨r, hr, rfl⟩ := List.mem_map.mp hmrow
  rcases List.mem_append.mp hcm with hcr | hcn
  · exact Or.inr (hmem r hr c hcr)
  · exact Or.inl (List.mem_singleton.mp hcn)

/-- Witness for C10 at an all-black 8×8 frame with `gridWidth = 4`. -/
theorem output_chars_in_ramp_C10_witness :
    (List.replicate 256 0).length = 4 * (8 * 8) ∧ (1 : ℤ) ≤ 4 ∧
    1 ≤ (8 : ℕ) / (4 : ℤ).toNat ∧ 1 ≤ STANDARD.length ∧
    (∀ s, (updateAsciiOutput ⟨List.replicate 256 0, 8, 8⟩ none none 4 STANDARD).1 = some s →
      ∀ c ∈ s.data, c = '\n' ∨ c ∈ STANDARD) :=
  ⟨by simp, by norm_num, by decide, by decide,
    output_chars_in_ramp_C10 ⟨List.replicate 256 0, 8, 8⟩ none none 4 STANDARD
      (by simp) (by norm_num) (by decide) (by decide)⟩

/-! ### C6: grid shape determinism at 640×480, gridWidth 120 -/

/-- C6: at 640×480 with `gridWidth = 120` the derived dimensions are
`cellWidth = 5`, `cellHeight = 10`, `gridHeight = 48`, and the published
text is 48 rows of exactly 120 characters, every row (the last included)
followed by a single newline. -/
theorem grid_shape_C6 (data : List ℕ) (hlen : data.length = 4 * (640 * 480)) :
    jsFloor (jsDiv (JSNum.num 640) (JSNum.num 120)) = JSNum.num 5 ∧
    jsFloor (jsMul (JSNum.num 5) (JSNum.num 2)) = JSNum.num 10 ∧
    jsFloor (jsDiv (JSNum.num 480) (JSNum.num 10)) = JSNum.num 48 ∧
    ∃ rowsL : List (List Char), rowsL.length = 48 ∧ (∀ r ∈ rowsL, r.length = 120) ∧
      (updateAsciiOutput ⟨data, 640, 480⟩ none none 120 STANDARD).1 =
        some (String.mk ((rowsL.map (fun r => r ++ ['\n'])).flatten)) := by
  refine ⟨by norm_num [jsDiv, jsFloor], by norm_num [jsMul, jsFloor],
    by norm_num [jsDiv, jsFloor], ?_⟩
  have hpos := updateAsciiOutput_pos ⟨data, 640, 480⟩ none none 120 STANDARD
    (by norm_num) (show (1 : ℕ) ≤ 640 / (120 : ℤ).toNat by decide)
  rw [show (composite ⟨data, 640, 480⟩ none none).1.data = data from rfl,
    show (composite ⟨data, 640, 480⟩ none none).2 = none from rfl,
    show (⟨data, 640, 480⟩ : ImageData).width = 640 from rfl,
    show (⟨data, 640, 480⟩ : ImageData).height = 480 from rfl,
    show ((120 : ℤ).toNat) = 120 from rfl,
    show (640 : ℕ) / 120 = 5 by norm_num,
    show (5 : ℕ) * 2 = 10 by norm_num,
    show (480 : ℕ) / 10 = 48 by norm_num] at hpos
  obtain ⟨rowsL, hart, hrl, hrlen, _⟩ := asciiArtChars_shape data 640
    (calibrate data 640 480) STANDARD 120 5 10 48 (by decide)
  refine ⟨rowsL, hrl, hrlen, ?_⟩
  rw [hpos, hart]

/-- Witness for C6 at the all-black 640×480 frame. -/
theorem grid_shape_C6_witness :
    (List.replicate (4 * (640 * 480)) 0).length = 4 * (640 * 480) ∧
    ∃ rowsL : List (List Char), rowsL.length = 48 ∧ (∀ r ∈ rowsL, r.length = 120) ∧
      (updateAsciiOutput ⟨List.replicate (4 * (640 * 480)) 0, 640, 480⟩
          none none 120 STANDARD).1 =
        some (String.mk ((rowsL.map (fun r => r ++ ['\n'])).flatten)) :=
  ⟨List.length_replicate (4 * (640 * 480)) 0,
    (grid_shape_C6 (List.replicate (4 * (640 * 480)) 0)
      (List.length_replicate (4 * (640 * 480)) 0)).2.2.2⟩

/-! ### Values of the lightness at black, white, and bounds -/

/-- L* is nonnegative on nonnegative pixels under a nonnegative correction. -/
theorem rgbToLabL_nonneg (corr : ColorCorrection)
    (hfR : 0 ≤ (corr.wbR : ℝ) * (corr.tempR : ℝ))
    (hfG : 0 ≤ (corr.wbG : ℝ) * (corr.tempG : ℝ))
    (hfB : 0 ≤ (corr.wbB : ℝ) * (corr.tempB : ℝ))
    {r g b : ℝ} (hr : 0 ≤ r) (hg : 0 ≤ g) (hb : 0 ≤ b) :
    0 ≤ rgbToLabL corr r g b := by
  simp only [rgbToLabL, mul_assoc]
  apply labLOfY_nonneg
  have h1 := srgbToLinear_nonneg (le_min (by norm_num : (0:ℝ) ≤ 255) (mul_nonneg hr hfR))
  have h2 := srgbToLinear_nonneg (le_min (by norm_num : (0:ℝ) ≤ 255) (mul_nonneg hg hfG))
  have h3 := srgbToLinear_nonneg (le_min (by norm_num : (0:ℝ) ≤ 255) (mul_nonneg hb hfB))
  linarith

/-- L* is at most 100 on nonnegative pixels under a nonnegative correction. -/
theorem rgbToLabL_le_100 (corr : ColorCorrection)
    (hfR : 0 ≤ (corr.wbR : ℝ) * (corr.tempR : ℝ))
    (hfG : 0 ≤ (corr.wbG : ℝ) * (corr.tempG : ℝ))
    (hfB : 0 ≤ (corr.wbB : ℝ) * (corr.tempB : ℝ))
    {r g b : ℝ} (hr : 0 ≤ r) (hg : 0 ≤ g) (hb : 0 ≤ b) :
    rgbToLabL corr r g b ≤ 100 := by
  simp only [rgbToLabL, mul_assoc]
  apply labLOfY_le_100
  have h1 := srgbToLinear_le_one (le_min (by norm_num : (0:ℝ) ≤ 255) (mul_nonneg hr hfR))
    (min_le_left _ _)
  have h2 := srgbToLinear_le_one (le_min (by norm_num : (0:ℝ) ≤ 255) (mul_nonneg hg hfG))
    (min_le_left _ _)
  have h3 := srgbToLinear_le_one (le_min (by norm_num : (0:ℝ) ≤ 255) (mul_nonneg hb hfB))
    (min_le_left _ _)
  linarith

/-- An all-black pixel has L* = 0 under any correction. -/
theorem rgbToLabL_zero (corr : ColorCorrection) : rgbToLabL corr 0 0 0 = 0 := by
  simp only [rgbToLabL, zero_mul, min_eq_right (by norm_num : (0:ℝ) ≤ 255),
    srgbToLinear_zero, mul_zero, add_zero, labLOfY]
  norm_num [labLOfY]

/-- An all-white pixel has L* = 100 when no channel's combined correction
factor shrinks it below full scale. -/
theorem rgbToLabL_white (corr : ColorCorrection)
    (hfR : 1 ≤ (corr.wbR : ℝ) * (corr.tempR : ℝ))
    (hfG : 1 ≤ (corr.wbG : ℝ) * (corr.tempG : ℝ))
    (hfB : 1 ≤ (corr.wbB : ℝ) * (corr.tempB : ℝ)) :
    rgbToLabL corr 255 255 255 = 100 := by
  simp only [rgbToLabL, mul_assoc]
  have e : ∀ f : ℝ, 1 ≤ f → min (255 : ℝ) (255 * f) = 255 := by
    intro f hf
    apply min_eq_left
    nlinarith
  rw [e _ hfR, e _ hfG, e _ hfB, srgbToLinear_255]
  rw [show (0.2126 : ℝ) * 1 + 0.7152 * 1 + 0.0722 * 1 = 1 by norm_num]
  rw [labLOfY, if_pos (by norm_num : (1 : ℝ) > 0.008856), Real.one_rpow]
  norm_num

/-- The cell average L* is nonnegative under a nonnegative correction. -/
theorem cellBrightness_nonneg (data : List ℕ) (imgW : ℕ) (corr : ColorCorrection)
    (hfR : 0 ≤ (corr.wbR : ℝ) * (corr.tempR : ℝ))
    (hfG : 0 ≤ (corr.wbG : ℝ) * (corr.tempG : ℝ))
    (hfB : 0 ≤ (corr.wbB : ℝ) * (corr.tempB : ℝ))
    (cw ch x y : ℕ) : 0 ≤ cellBrightness data imgW corr cw ch x y := by
  rw [cellBrightness]
  apply div_nonneg _ (by positivity)
  apply Finset.sum_nonneg
  intro cy _
  apply Finset.sum_nonneg
  intro cx _
  exact rgbToLabL_nonneg corr hfR hfG hfB (Nat.cast_nonneg _) (Nat.cast_nonneg _)
    (Nat.cast_nonneg _)

/-- The cell average L* is at most 100 under a nonnegative correction. -/
theorem cellBrightness_le_100 (data : List ℕ) (imgW : ℕ) (corr : ColorCorrection)
    (hfR : 0 ≤ (corr.wbR : ℝ) * (corr.tempR : ℝ))
    (hfG : 0 ≤ (corr.wbG : ℝ) * (corr.tempG : ℝ))
    (hfB : 0 ≤ (corr.wbB : ℝ) * (corr.tempB : ℝ))
    (cw ch x y : ℕ) : cellBrightness data imgW corr cw ch x y ≤ 100 := by
  rw [cellBrightness]
  rcases Nat.eq_zero_or_pos (ch * cw) with h0 | h0
  · rw [h0]
    norm_num
  · have hpos : (0 : ℝ) < ((ch * cw : ℕ) : ℝ) := by exact_mod_cast h0
    rw [div_le_iff₀ hpos]
    have hsum : (∑ cy ∈ Finset.range ch, ∑ cx ∈ Finset.range cw,
        rgbToLabL corr
          (data.getD (((y * ch + cy) * imgW + (x * cw + cx)) * 4) 0)
          (data.getD (((y * ch + cy) * imgW + (x * cw + cx)) * 4 + 1) 0)
          (data.getD (((y * ch + cy) * imgW + (x * cw + cx)) * 4 + 2) 0)) ≤
        ∑ _cy ∈ Finset.range ch, ∑ _cx ∈ Finset.range cw, (100 : ℝ) := by
      apply Finset.sum_le_sum
      intro cy _
      apply Finset.sum_le_sum
      intro cx _
      exact rgbToLabL_le_100 corr hfR hfG hfB (Nat.cast_nonneg _) (Nat.cast_nonneg _)
        (Nat.cast_nonneg _)
    have hconst : (∑ _cy ∈ Finset.range ch, ∑ _cx ∈ Finset.range cw, (100 : ℝ)) =
        100 * ((ch * cw : ℕ) : ℝ) := by
      simp [Finset.sum_const, Finset.card_range]
      push_cast
      ring
    linarith

/-- A cell whose block is a constant pixel has that pixel's L* as its
average. -/
theorem cellBrightness_const (data : List ℕ) (imgW : ℕ) (corr : ColorCorrection)
    (cw ch x y : ℕ) (r g b : ℕ) (hcount : 1 ≤ ch * cw)
    (hblock : ∀ cy, cy < ch → ∀ cx, cx < cw →
      data.getD (((y * ch + cy) * imgW + (x * cw + cx)) * 4) 0 = r ∧
      data.getD (((y * ch + cy) * imgW + (x * cw + cx)) * 4 + 1) 0 = g ∧
      data.getD (((y * ch + cy) * imgW + (x * cw + cx)) * 4 + 2) 0 = b) :
    cellBrightness data imgW corr cw ch x y = rgbToLabL corr r g b := by
  rw [cellBrightness]
  have hsum : (∑ cy ∈ Finset.range ch, ∑ cx ∈ Finset.range cw,
      rgbToLabL corr
        (data.getD (((y * ch + cy) * imgW + (x * cw + cx)) * 4) 0)
        (data.getD (((y * ch + cy) * imgW + (x * cw + cx)) * 4 + 1) 0)
        (data.getD (((y * ch + cy) * imgW + (x * cw + cx)) * 4 + 2) 0)) =
      ∑ _cy ∈ Finset.range ch, ∑ _cx ∈ Finset.range cw, rgbToLabL corr r g b := by
    apply Finset.sum_congr rfl
    intro cy hcy
    apply Finset.sum_congr rfl
    intro cx hcx
    obtain ⟨h1, h2, h3⟩ := hblock cy (Finset.mem_range.mp hcy) cx (Finset.mem_range.mp hcx)
    rw [h1, h2, h3]
  rw [hsum]
  have hconst : (∑ _cy ∈ Finset.range ch, ∑ _cx ∈ Finset.range cw, rgbToLabL corr r g b) =
      ((ch * cw : ℕ) : ℝ) * rgbToLabL corr r g b := by
    simp [Finset.sum_const, Finset.card_range]
    push_cast
    ring
  rw [hconst]
  have hne : ((ch * cw : ℕ) : ℝ) ≠ 0 := by
    have : (0 : ℝ) < ((ch * cw : ℕ) : ℝ) := by exact_mod_cast hcount
    exact ne_of_gt this
  exact mul_div_cancel_left₀ _ hne

/-- The 3×3 clipped blur is nonnegative under a nonnegative correction. -/
theorem blurredAt_nonneg (data : List ℕ) (imgW : ℕ) (corr : ColorCorrection)
    (hfR : 0 ≤ (corr.wbR : ℝ) * (corr.tempR : ℝ))
    (hfG : 0 ≤ (corr.wbG : ℝ) * (corr.tempG : ℝ))
    (hfB : 0 ≤ (corr.wbB : ℝ) * (corr.tempB : ℝ))
    (cw ch aw rows x y : ℕ) : 0 ≤ blurredAt data imgW corr cw ch aw rows x y := by
  simp only [blurredAt]
  apply div_nonneg _ (by positivity)
  apply Finset.sum_nonneg
  intro d _
  exact cellBrightness_nonneg data imgW corr hfR hfG hfB cw ch _ _

/-- The 3×3 clipped blur is at most 100 under a nonnegative correction. -/
theorem blurredAt_le_100 (data : List ℕ) (imgW : ℕ) (corr : ColorCorrection)
    (hfR : 0 ≤ (corr.wbR : ℝ) * (corr.tempR : ℝ))
    (hfG : 0 ≤ (corr.wbG : ℝ) * (corr.tempG : ℝ))
    (hfB : 0 ≤ (corr.wbB : ℝ) * (corr.tempB : ℝ))
    (cw ch aw rows x y : ℕ) : blurredAt data imgW corr cw ch aw rows x y ≤ 100 := by
  simp only [blurredAt]
  set nbhd := ((Finset.Icc (-1 : ℤ) 1) ×ˢ (Finset.Icc (-1 : ℤ) 1)).filter
    (fun d => 0 ≤ (y : ℤ) + d.1 ∧ (y : ℤ) + d.1 < (rows : ℤ) ∧
      0 ≤ (x : ℤ) + d.2 ∧ (x : ℤ) + d.2 < (aw : ℤ)) with hnbhd
  rcases Nat.eq_zero_or_pos nbhd.card with h0 | h0
  · rw [h0]
    norm_num
  · have hpos : (0 : ℝ) < (nbhd.card : ℝ) := by exact_mod_cast h0
    rw [div_le_iff₀ hpos]
    have hsum : (∑ d ∈ nbhd, cellBrightness data imgW corr cw ch
        ((x : ℤ) + d.2).toNat ((y : ℤ) + d.1).toNat) ≤ ∑ _d ∈ nbhd, (100 : ℝ) := by
      apply Finset.sum_le_sum
      intro d _
      exact cellBrightness_le_100 data imgW corr hfR hfG hfB cw ch _ _
    rw [Finset.sum_const, nsmul_eq_mul] at hsum
    linarith

/-- When every grid neighbor of `(x, y)` has the same average L, the blur
at `(x, y)` equals it. -/
theorem blurredAt_localconst (data : List ℕ) (imgW : ℕ) (corr : ColorCorrection)
    (cw ch aw rows x y : ℕ) (L : ℝ) (hx : x < aw) (hy : y < rows)
    (hloc : ∀ x' y', x' < aw → y' < rows → x' ≤ x + 1 → x ≤ x' + 1 →
      y' ≤ y + 1 → y ≤ y' + 1 →
      cellBrightness data imgW corr cw ch x' y' = L) :
    blurredAt data imgW corr cw ch aw rows x y = L := by
  simp only [blurredAt]
  set nbhd := ((Finset.Icc (-1 : ℤ) 1) ×ˢ (Finset.Icc (-1 : ℤ) 1)).filter
    (fun d => 0 ≤ (y : ℤ) + d.1 ∧ (y : ℤ) + d.1 < (rows : ℤ) ∧
      0 ≤ (x : ℤ) + d.2 ∧ (x : ℤ) + d.2 < (aw : ℤ)) with hnbhd
  have hmem0 : ((0 : ℤ), (0 : ℤ)) ∈ nbhd := by
    rw [hnbhd, Finset.mem_filter]
    refine ⟨Finset.mem_product.mpr ⟨by decide, by decide⟩, ?_⟩
    show 0 ≤ (y : ℤ) + 0 ∧ (y : ℤ) + 0 < (rows : ℤ) ∧ 0 ≤ (x : ℤ) + 0 ∧ (x : ℤ) + 0 < (aw : ℤ)
    omega
  have hcard : 0 < nbhd.card := Finset.card_pos.mpr ⟨_, hmem0⟩
  have hsum : (∑ d ∈ nbhd, cellBrightness data imgW corr cw ch
      ((x : ℤ) + d.2).toNat ((y : ℤ) + d.1).toNat) = ∑ _d ∈ nbhd, L := by
    apply Finset.sum_congr rfl
    intro d hd
    rw [hnbhd, Finset.mem_filter, Finset.mem_product] at hd
    obtain ⟨⟨hd1, hd2⟩, hy0, hyr, hx0, hxa⟩ := hd
    rw [Finset.mem_Icc] at hd1 hd2
    apply hloc <;> omega
  rw [hsum, Finset.sum_const, nsmul_eq_mul]
  have hne : (nbhd.card : ℝ) ≠ 0 := by
    have : (0 : ℝ) < (nbhd.card : ℝ) := by exact_mod_cast hcard
    exact ne_of_gt this
  exact mul_div_cancel_left₀ _ hne

/-- Sharpening formula when the blur equals the original (uniform
neighborhood): the clamped value is the original itself. -/
theorem sharpenedAt_of_blur_eq (data : List ℕ) (imgW : ℕ) (corr : ColorCorrection)
    (cw ch aw rows x y : ℕ)
    (h : blurredAt data imgW corr cw ch aw rows x y =
      cellBrightness data imgW corr cw ch x y)
    (h0 : 0 ≤ cellBrightness data imgW corr cw ch x y)
    (h100 : cellBrightness data imgW corr cw ch x y ≤ 100) :
    sharpenedAt data imgW corr cw ch aw rows x y =
      cellBrightness data imgW corr cw ch x y := by
  simp only [sharpenedAt, h]
  rw [show cellBrightness data imgW corr cw ch x y + 0.5 *
      (cellBrightness data imgW corr cw ch x y - cellBrightness data imgW corr cw ch x y) =
      cellBrightness data imgW corr cw ch x y by ring]
  rw [min_eq_right h100, max_eq_right h0]

/-- Sharpening formula for an all-black cell: whatever the neighborhood,
the clamp floors the value at 0. -/
theorem sharpenedAt_of_zero (data : List ℕ) (imgW : ℕ) (corr : ColorCorrection)
    (cw ch aw rows x y : ℕ)
    (h : cellBrightness data imgW corr cw ch x y = 0)
    (hblur : 0 ≤ blurredAt data imgW corr cw ch aw rows x y) :
    sharpenedAt data imgW corr cw ch aw rows x y = 0 := by
  simp only [sharpenedAt, h]
  have hin : 0 + 0.5 * (0 - blurredAt data imgW corr cw ch aw rows x y) ≤ 0 := by linarith
  rw [min_eq_right (le_trans hin (by norm_num)), max_eq_left hin]

/-- Sharpening formula for a full-scale cell: whatever the neighborhood,
the clamp caps the value at 100. -/
theorem sharpenedAt_of_100 (data : List ℕ) (imgW : ℕ) (corr : ColorCorrection)
    (cw ch aw rows x y : ℕ)
    (h : cellBrightness data imgW corr cw ch x y = 100)
    (hblur : blurredAt data imgW corr cw ch aw rows x y ≤ 100) :
    sharpenedAt data imgW corr cw ch aw rows x y = 100 := by
  simp only [sharpenedAt, h]
  have hin : (100 : ℝ) ≤ 100 + 0.5 * (100 - blurredAt data imgW corr cw ch aw rows x y) := by
    linarith
  rw [min_eq_left hin, max_eq_right (by norm_num : (0 : ℝ) ≤ 100)]

/-- The emitted cell character, given the value of the sharpened cell. -/
theorem cellChar_of_sharpened (data : List ℕ) (imgW : ℕ) (corr : ColorCorrection)
    (charset : List Char) (cw ch aw rows x y : ℕ) (s : ℝ)
    (hs : sharpenedAt data imgW corr cw ch aw rows x y = s)
    (n : ℕ) (hn : n < charset.length)
    (hidx : charIndexOf s charset.length = (n : ℤ)) :
    cellChar data imgW corr charset cw ch aw rows x y = [charset.getD n '\n'] := by
  rw [cellChar, hs, hidx]
  rw [if_neg (by omega : ¬((n : ℤ) < 0))]
  rw [show ((n : ℤ)).toNat = n from Int.toNat_natCast n]
  rw [List.getElem?_eq_getElem hn, List.getD_eq_getElem charset '\n' hn]
  rfl

/-- The quantization at the two extremes of the clamped range. -/
theorem charIndexOf_extremes (len : ℕ) (hlen : 1 ≤ len) :
    charIndexOf 0 len = 0 ∧ charIndexOf 100 len = (len : ℤ) - 1 := by
  constructor
  · rw [charIndexOf]
    norm_num
  · rw [charIndexOf]
    rw [show (100 : ℝ) / 100 * ((len : ℝ) - 1) = (((len : ℤ) - 1 : ℤ) : ℝ) by push_cast; ring]
    exact Int.floor_intCast _

/-! ### C7: ramp boundary mapping -/

/-- C7 amended: a sharpened value of 0 maps to ramp index 0 and a value
of 100 to the last ramp index, for every ramp of length ≥ 1; an all-black
cell block always emits the ramp's first character (under the
calibrator's nonnegative factors); an all-white cell block emits the last
character provided no channel's combined correction factor is below 1
(for example under the identity calibration of a uniform white frame) —
a warm-biased frame can shrink a channel and emit an earlier character.  -/
theorem ramp_boundary_C7 :
    (∀ len : ℕ, 1 ≤ len → charIndexOf 0 len = 0 ∧ charIndexOf 100 len = (len : ℤ) - 1) ∧
    (∀ (data : List ℕ) (imgW : ℕ) (corr : ColorCorrection) (charset : List Char)
      (cw ch aw rows x y : ℕ),
      0 ≤ (corr.wbR : ℝ) * (corr.tempR : ℝ) → 0 ≤ (corr.wbG : ℝ) * (corr.tempG : ℝ) →
      0 ≤ (corr.wbB : ℝ) * (corr.tempB : ℝ) →
      1 ≤ ch * cw → 1 ≤ charset.length →
      (∀ cy, cy < ch → ∀ cx, cx < cw →
        data.getD (((y * ch + cy) * imgW + (x * cw + cx)) * 4) 0 = 0 ∧
        data.getD (((y * ch + cy) * imgW + (x * cw + cx)) * 4 + 1) 0 = 0 ∧
        data.getD (((y * ch + cy) * imgW + (x * cw + cx)) * 4 + 2) 0 = 0) →
      cellChar data imgW corr charset cw ch aw rows x y = [charset.getD 0 '\n']) ∧
    (∀ (data : List ℕ) (imgW : ℕ) (corr : ColorCorrection) (charset : List Char)
      (cw ch aw rows x y : ℕ),
      1 ≤ (corr.wbR : ℝ) * (corr.tempR : ℝ) → 1 ≤ (corr.wbG : ℝ) * (corr.tempG : ℝ) →
      1 ≤ (corr.wbB : ℝ) * (corr.tempB : ℝ) →
      1 ≤ ch * cw → 1 ≤ charset.length →
      (∀ cy, cy < ch → ∀ cx, cx < cw →
        data.getD (((y * ch + cy) * imgW + (x * cw + cx)) * 4) 0 = 255 ∧
        data.getD (((y * ch + cy) * imgW + (x * cw + cx)) * 4 + 1) 0 = 255 ∧
        data.getD (((y * ch + cy) * imgW + (x * cw + cx)) * 4 + 2) 0 = 255) →
      cellChar data imgW corr charset cw ch aw rows x y =
        [charset.getD (charset.length - 1) '\n']) := by
  refine ⟨fun len hlen => charIndexOf_extremes len hlen, ?_, ?_⟩
  · intro data imgW corr charset cw ch aw rows x y hfR hfG hfB hcount hlen hblock
    have hcell : cellBrightness data imgW corr cw ch x y = 0 := by
      rw [cellBrightness_const data imgW corr cw ch x y 0 0 0 hcount hblock]
      rw [show ((0 : ℕ) : ℝ) = 0 from Nat.cast_zero]
      exact rgbToLabL_zero corr
    have hsh : sharpenedAt data imgW corr cw ch aw rows x y = 0 :=
      sharpenedAt_of_zero data imgW corr cw ch aw rows x y hcell
        (blurredAt_nonneg data imgW corr hfR hfG hfB cw ch aw rows x y)
    apply cellChar_of_sharpened data imgW corr charset cw ch aw rows x y 0 hsh 0 (by omega)
    rw [(charIndexOf_extremes charset.length hlen).1]
    rfl
  · intro data imgW corr charset cw ch aw rows x y hfR hfG hfB hcount hlen hblock
    have hfR0 : 0 ≤ (corr.wbR : ℝ) * (corr.tempR : ℝ) := le_trans zero_le_one hfR
    have hfG0 : 0 ≤ (corr.wbG : ℝ) * (corr.tempG : ℝ) := le_trans zero_le_one hfG
    have hfB0 : 0 ≤ (corr.wbB : ℝ) * (corr.tempB : ℝ) := le_trans zero_le_one hfB
    have hcell : cellBrightness data imgW corr cw ch x y = 100 := by
      rw [cellBrightness_const data imgW corr cw ch x y 255 255 255 hcount hblock]
      rw [show ((255 : ℕ) : ℝ) = 255 by norm_num]
      exact rgbToLabL_white corr hfR hfG hfB
    have hsh : sharpenedAt data imgW corr cw ch aw rows x y = 100 :=
      sharpenedAt_of_100 data imgW corr cw ch aw rows x y hcell
        (blurredAt_le_100 data imgW corr hfR0 hfG0 hfB0 cw ch aw rows x y)
    apply cellChar_of_sharpened data imgW corr charset cw ch aw rows x y 100 hsh
      (charset.length - 1) (by omega)
    rw [(charIndexOf_extremes charset.length hlen).2]
    omega

/-- Witness for C7 (amended): the boundary mapping on the `STANDARD`
ramp, an all-black cell and an all-white cell of a uniform 8×8 frame
under its own calibration. -/
theorem ramp_boundary_C7_witness :
    ((1 : ℕ) ≤ STANDARD.length ∧ charIndexOf 0 STANDARD.length = 0 ∧
      charIndexOf 100 STANDARD.length = (STANDARD.length : ℤ) - 1) ∧
    (cellChar (List.replicate 256 0) 8 (calibrate (List.replicate 256 0) 8 8)
      STANDARD 2 4 4 2 0 0 = [STANDARD.getD 0 '\n']) ∧
    (cellChar (List.replicate 256 255) 8 (calibrate (List.replicate 256 255) 8 8)
      STANDARD 2 4 4 2 0 0 = [STANDARD.getD (STANDARD.length - 1) '\n']) := by
  have hcalB : calibrate (List.replicate 256 0) 8 8 = ⟨1, 1, 1, 1.08, 1, 0.92⟩ := by
    have h0 : sumChannel (List.replicate 256 0) 0 = 0 := by decide
    have h1 : sumChannel (List.replicate 256 0) 1 = 0 := by decide
    have h2 : sumChannel (List.replicate 256 0) 2 = 0 := by decide
    rw [calibrate, meanChannel, meanChannel, meanChannel, h0, h1, h2]
    norm_num
  have hcalW : calibrate (List.replicate 256 255) 8 8 = ⟨1, 1, 1, 1, 1, 1⟩ := by
    have h0 : sumChannel (List.replicate 256 255) 0 = 4080 := by decide
    have h1 : sumChannel (List.replicate 256 255) 1 = 4080 := by decide
    have h2 : sumChannel (List.replicate 256 255) 2 = 4080 := by decide
    rw [calibrate, meanChannel, meanChannel, meanChannel, h0, h1, h2]
    norm_num
  refine ⟨⟨by decide, ramp_boundary_C7.1 STANDARD.length (by decide)⟩, ?_, ?_⟩
  · apply ramp_boundary_C7.2.1 (List.replicate 256 0) 8 _ STANDARD 2 4 4 2 0 0
    · rw [hcalB]
      norm_num
    · rw [hcalB]
      norm_num
    · rw [hcalB]
      norm_num
    · norm_num
    · decide
    · decide
  · apply ramp_boundary_C7.2.2 (List.replicate 256 255) 8 _ STANDARD 2 4 4 2 0 0
    · rw [hcalW]
      norm_num
    · rw [hcalW]
      norm_num
    · rw [hcalW]
      norm_num
    · norm_num
    · decide
    · decide

/-- The sRGB decoding curve is strictly below 1 short of full scale. -/
theorem srgbToLinear_lt_one {c : ℝ} (hc0 : 0 ≤ c) (hc : c < 255) : srgbToLinear c < 1 := by
  have hs1 : c / 255 < 1 := by
    rw [div_lt_one (by norm_num : (0 : ℝ) < 255)]
    exact hc
  rw [srgbToLinear]
  by_cases h : c / 255 ≤ 0.04045
  · rw [if_pos h]
    rw [div_lt_one (by norm_num : (0 : ℝ) < 12.92)]
    linarith
  · rw [if_neg h]
    apply Real.rpow_lt_one (srgb_base_nonneg hc0) _ (by norm_num)
    rw [div_lt_one (by norm_num : (0 : ℝ) < 1.055)]
    linarith

/-- Counterexample frame for C7: an 8×8 frame whose left half (pixels
with `x < 4`) is pure white `(255,255,255,255)` and whose right half is
pure red `(255,0,0,255)`, written out as its 256 RGBA bytes.  Its
Gray-World means are `(255, 127.5, 127.5)`, so the scene is classified as
warm (`t ≈ 2.98 > 2.5`) and the combined red factor is `(2/3)·0.92 < 1`. -/
def frameCEx : List ℕ :=
[
  255, 255, 255, 255, 255, 255, 255, 255, 255, 255, 255, 255, 255, 255, 255, 255,
  255, 0, 0, 255, 255, 0, 0, 255, 255, 0, 0, 255, 255, 0, 0, 255,
  255, 255, 255, 255, 255, 255, 255, 255, 255, 255, 255, 255, 255, 255, 255, 255,
  255, 0, 0, 255, 255, 0, 0, 255, 255, 0, 0, 255, 255, 0, 0, 255,
  255, 255, 255, 255, 255, 255, 255, 255, 255, 255, 255, 255, 255, 255, 255, 255,
  255, 0, 0, 255, 255, 0, 0, 255, 255, 0, 0, 255, 255, 0, 0, 255,
  255, 255, 255, 255, 255, 255, 255, 255, 255, 255, 255, 255, 255, 255, 255, 255,
  255, 0, 0, 255, 255, 0, 0, 255, 255, 0, 0, 255, 255, 0, 0, 255,
  255, 255, 255, 255, 255, 255, 255, 255, 255, 255, 255, 255, 255, 255, 255, 255,
  255, 0, 0, 255, 255, 0, 0, 255, 255, 0, 0, 255, 255, 0, 0, 255,
  255, 255, 255, 255, 255, 255, 255, 255, 255, 255, 255, 255, 255, 255, 255, 255,
  255, 0, 0, 255, 255, 0, 0, 255, 255, 0, 0, 255, 255, 0, 0, 255,
  255, 255, 255, 255, 255, 255, 255, 255, 255, 255, 255, 255, 255, 255, 255, 255,
  255, 0, 0, 255, 255, 0, 0, 255, 255, 0, 0, 255, 255, 0, 0, 255,
  255, 255, 255, 255, 255, 255, 255, 255, 255, 255, 255, 255, 255, 255, 255, 255,
  255, 0, 0, 255, 255, 0, 0, 255, 255, 0, 0, 255, 255, 0, 0, 255]

/-- Channel sums of the counterexample frame (16 sampled pixels, half
white and half red). -/
theorem frameCEx_sums : sumChannel frameCEx 0 = 4080 ∧ sumChannel frameCEx 1 = 2040 ∧
    sumChannel frameCEx 2 = 2040 := by
  refine ⟨by decide, by decide, by decide⟩

/-- The STANDARD ramp has 70 characters. -/
theorem STANDARD_length : STANDARD.length = 70 := by decide

/-- No STANDARD ramp character before the last one is the dollar sign. -/
theorem STANDARD_not_dollar : ∀ n : ℕ, n < 69 → STANDARD.getD n '\n' ≠ '$' := by decide

/-- The four grid cells with `x < 2`, `y < 2` of the counterexample frame
are all-white blocks. -/
theorem frameCEx_white_cells : ∀ x' : ℕ, x' < 2 → ∀ y' : ℕ, y' < 2 →
    ∀ cy : ℕ, cy < 4 → ∀ cx : ℕ, cx < 2 →
    frameCEx.getD (((y' * 4 + cy) * 8 + (x' * 2 + cx)) * 4) 0 = 255 ∧
    frameCEx.getD (((y' * 4 + cy) * 8 + (x' * 2 + cx)) * 4 + 1) 0 = 255 ∧
    frameCEx.getD (((y' * 4 + cy) * 8 + (x' * 2 + cx)) * 4 + 2) 0 = 255 := by decide

/-- C7 counterexample: with `gridWidth = 4` on `frameCEx`, cell `(0,0)`
is an all-white block (as is its whole 3×3 grid neighborhood), yet the
frame-wide warm-bias correction darkens the red channel, the cell's L*
stays strictly below 100, and the first character of the published text —
the one emitted for that all-white cell — is not the STANDARD ramp's last
character `$`. -/
theorem allwhite_not_last_C7cex :
    ((List.range 4).all (fun cy => (List.range 2).all (fun cx =>
      (frameCEx.getD (((0 * 4 + cy) * 8 + (0 * 2 + cx)) * 4) 0 == 255) &&
      (frameCEx.getD (((0 * 4 + cy) * 8 + (0 * 2 + cx)) * 4 + 1) 0 == 255) &&
      (frameCEx.getD (((0 * 4 + cy) * 8 + (0 * 2 + cx)) * 4 + 2) 0 == 255))) = true) ∧
    STANDARD.getLast? = some '$' ∧
    (updateAsciiOutput ⟨frameCEx, 8, 8⟩ none none 4 STANDARD).1 =
      some (String.mk (asciiArtChars frameCEx 8 (calibrate frameCEx 8 8) STANDARD 4 2 4 2)) ∧
    (asciiArtChars frameCEx 8 (calibrate frameCEx 8 8) STANDARD 4 2 4 2).head? ≠
      some '$' := by
  set corrC : ColorCorrection := ⟨2/3, 4/3, 4/3, 0.92, 1, 1.08⟩ with hcorrC
  have hcal : calibrate frameCEx 8 8 = corrC := by
    rw [calibrate, meanChannel, meanChannel, meanChannel,
      frameCEx_sums.1, frameCEx_sums.2.1, frameCEx_sums.2.2, hcorrC]
    norm_num
  have hprodR : (corrC.wbR : ℝ) * (corrC.tempR : ℝ) = 46 / 75 := by
    norm_num [hcorrC]
  have hprodG : (corrC.wbG : ℝ) * (corrC.tempG : ℝ) = 4 / 3 := by
    norm_num [hcorrC]
  have hprodB : (corrC.wbB : ℝ) * (corrC.tempB : ℝ) = 36 / 25 := by
    norm_num [hcorrC]
  have hLw0 : 0 ≤ rgbToLabL corrC 255 255 255 :=
    rgbToLabL_nonneg corrC (by rw [hprodR]; norm_num) (by rw [hprodG]; norm_num)
      (by rw [hprodB]; norm_num) (by norm_num) (by norm_num) (by norm_num)
  have hLwlt : rgbToLabL corrC 255 255 255 < 100 := by
    simp only [rgbToLabL, mul_assoc]
    rw [hprodR, hprodG, hprodB]
    rw [show min (255 : ℝ) (255 * (46 / 75)) = 255 * (46 / 75) from
      min_eq_right (by norm_num)]
    rw [show min (255 : ℝ) (255 * (4 / 3)) = 255 from min_eq_left (by norm_num)]
    rw [show min (255 : ℝ) (255 * (36 / 25)) = 255 from min_eq_left (by norm_num)]
    rw [srgbToLinear_255]
    apply labLOfY_lt_100
    · have h1 := srgbToLinear_nonneg (show (0 : ℝ) ≤ 255 * (46 / 75) by norm_num)
      linarith
    · have h2 := srgbToLinear_lt_one (show (0 : ℝ) ≤ 255 * (46 / 75) by norm_num)
        (by norm_num : (255 : ℝ) * (46 / 75) < 255)
      linarith
  have hcellW : ∀ x' y', x' < 2 → y' < 2 →
      cellBrightness frameCEx 8 corrC 2 4 x' y' = rgbToLabL corrC 255 255 255 := by
    intro x' y' hx' hy'
    have hblock : ∀ cy, cy < 4 → ∀ cx, cx < 2 →
        frameCEx.getD (((y' * 4 + cy) * 8 + (x' * 2 + cx)) * 4) 0 = 255 ∧
        frameCEx.getD (((y' * 4 + cy) * 8 + (x' * 2 + cx)) * 4 + 1) 0 = 255 ∧
        frameCEx.getD (((y' * 4 + cy) * 8 + (x' * 2 + cx)) * 4 + 2) 0 = 255 :=
      frameCEx_white_cells x' hx' y' hy'
    rw [cellBrightness_const frameCEx 8 corrC 2 4 x' y' 255 255 255 (by norm_num) hblock]
    rw [show ((255 : ℕ) : ℝ) = 255 by norm_num]
  have hblur : blurredAt frameCEx 8 corrC 2 4 4 2 0 0 = rgbToLabL corrC 255 255 255 := by
    apply blurredAt_localconst frameCEx 8 corrC 2 4 4 2 0 0 _ (by norm_num) (by norm_num)
    intro x' y' _ hy' hx1 _ _ _
    exact hcellW x' y' (by omega) (by omega)
  have hsh : sharpenedAt frameCEx 8 corrC 2 4 4 2 0 0 = rgbToLabL corrC 255 255 255 := by
    have h00 := hcellW 0 0 (by norm_num) (by norm_num)
    rw [sharpenedAt_of_blur_eq frameCEx 8 corrC 2 4 4 2 0 0 (by rw [hblur, h00])
      (by rw [h00]; exact hLw0) (by rw [h00]; exact le_of_lt hLwlt)]
    exact h00
  have hidx0 : 0 ≤ charIndexOf (rgbToLabL corrC 255 255 255) STANDARD.length :=
    (charIndexOf_bounds _ _ hLw0 (le_of_lt hLwlt) (by rw [STANDARD_length]; omega)).1
  have hidxlt : charIndexOf (rgbToLabL corrC 255 255 255) STANDARD.length < 69 := by
    rw [STANDARD_length, charIndexOf]
    apply Int.floor_lt.mpr
    push_cast
    rw [div_mul_eq_mul_div, div_lt_iff₀ (by norm_num : (0 : ℝ) < 100)]
    nlinarith [hLwlt]
  have hchar : cellChar frameCEx 8 corrC STANDARD 2 4 4 2 0 0 =
      [STANDARD.getD (charIndexOf (rgbToLabL corrC 255 255 255) STANDARD.length).toNat '\n'] := by
    apply cellChar_of_sharpened frameCEx 8 corrC STANDARD 2 4 4 2 0 0 _ hsh
    · have h70 : STANDARD.length = 70 := STANDARD_length
      omega
    · exact (Int.toNat_of_nonneg hidx0).symm
  have hhead : (asciiArtChars frameCEx 8 corrC STANDARD 4 2 4 2).head? =
      some (STANDARD.getD
        (charIndexOf (rgbToLabL corrC 255 255 255) STANDARD.length).toNat '\n') := by
    rw [asciiArtChars, show List.range 2 = [0, 1] from by decide,
      show List.range 4 = [0, 1, 2, 3] from by decide]
    simp only [List.map_cons, List.map_nil, List.flatten_cons, List.flatten_nil]
    rw [hchar]
    rw [List.singleton_append, List.cons_append, List.cons_append, List.head?_cons]
  refine ⟨by decide, by decide, ?_, ?_⟩
  · have hpos := updateAsciiOutput_pos ⟨frameCEx, 8, 8⟩ none none 4 STANDARD (by norm_num)
      (show (1 : ℕ) ≤ 8 / (4 : ℤ).toNat by decide)
    rw [show (composite ⟨frameCEx, 8, 8⟩ none none).1.data = frameCEx from rfl,
      show (⟨frameCEx, 8, 8⟩ : ImageData).width = 8 from rfl,
      show (⟨frameCEx, 8, 8⟩ : ImageData).height = 8 from rfl,
      show ((4 : ℤ).toNat) = 4 from rfl,
      show (8 : ℕ) / (8 / 4 * 2) = 2 by norm_num,
      show (8 : ℕ) / 4 * 2 = 4 by norm_num] at hpos
    rw [hpos]
  · rw [hcal, hhead]
    simp only [ne_eq, Option.some.injEq]
    exact STANDARD_not_dollar _ (by omega)

end AsciiCam
